import Mathlib

/-!
# Helmsman: composition of the desired state (`internal/app/cli.go`)

A shallow embedding of the command-line layer of Helmsman that orders the
desired-state files, folds them into one state and gates the result with the
validator, together with the properties proved about it.

Conventions of the embedding:

* a Go slice is a `List`; a Go `map[string]T` is an association list that is
  read with `mapGet` and written with `mapSet`;
* a Go `int` is an `Int` (only comparisons are performed on it);
* a method with a pointer receiver returns the new value of the receiver;
* effects whose order matters (reading a file, calling the validator, ...)
  are recorded in a trace of `Event`s.
-/

namespace Helmsman

/-! ## File descriptors (`fileOption`, `fileOptionArray`) -/

/-- The struct `fileOption`: one state source and its merge priority. -/
structure fileOption where
  name : String
  priority : Int
deriving DecidableEq, Repr

/-- The type `fileOptionArray`, declared as `[]fileOption`. -/
abbrev fileOptionArray := List fileOption

/-- Go's `string`, under a name that the method `String` below does not shadow. -/
abbrev GoString := String

/-- Go's `strings.Join(a, sep)`. -/
def stringsJoin (a : List GoString) (sep : GoString) : GoString :=
  sep.intercalate a

/-- The method `(f *fileOptionArray) String()`: the names, joined by a blank. -/
def fileOptionArray.String (f : fileOptionArray) : GoString :=
  stringsJoin (f.foldl (fun a v => a ++ [v.name]) []) " "

/-- The method `(f *fileOptionArray) Set(value)`: a zero-valued `fileOption` gets the
name `value` and is appended. The result is the new array and the returned error
(always `nil`). -/
def fileOptionArray.Set (f : fileOptionArray) (value : GoString) :
    fileOptionArray × Option GoString :=
  let fo : fileOption := { name := value, priority := 0 }
  (f ++ [fo], none)

/-- The inner loop of the insertion sort behind Go's `sort.SliceStable`
(`for j := i; j > a && less(j, j-1); j-- { swap(j, j-1) }`): the element `x`, found
right after the already sorted block, moves left while it is strictly less than its
left neighbour. The sorted block is passed and returned from right to left. -/
def insertBack {α : Type} (less : α → α → Bool) (x : α) : List α → List α
  | [] => [x]
  | y :: ys => if less x y then y :: insertBack less x ys else x :: y :: ys

/-- Go's `sort.SliceStable(x, less)`, as the insertion sort the standard library
runs on every block (`for i := a + 1; i < b; i++ { ... }`). The library merges blocks
of more than 20 elements with `symMerge`; the outcome is the same list, since a stable
sort has one possible outcome (`stable_sort_unique` below). -/
def sliceStable {α : Type} (less : α → α → Bool) (x : List α) : List α :=
  (x.foldl (fun sortedBlock e => insertBack less e sortedBlock) []).reverse

/-- The comparison passed to `sort.SliceStable` by `fileOptionArray.sort`:
`f[i].priority < f[j].priority`. -/
def priorityLess (a b : fileOption) : Bool :=
  decide (a.priority < b.priority)

/-- The method `(f fileOptionArray) sort()`: the array after the in-place stable sort. -/
def fileOptionArray.sort (f : fileOptionArray) : fileOptionArray :=
  sliceStable priorityLess f

/-- The array built from the empty one by one `Set` per supplied value, as the flag
package does for a repeated `-f` option. -/
def setAll (values : List String) : fileOptionArray :=
  values.foldl (fun f v => (fileOptionArray.Set f v).1) []

/-- The descriptors of priority `p`, in the order of the array. -/
def withPriority (p : Int) (f : fileOptionArray) : fileOptionArray :=
  f.filter (fun o => decide (o.priority = p))

/-! ## Go maps -/

/-- A read `m[k]` of a Go map (`v, ok := m[k]`): the first binding of `k`. -/
def mapGet {β : Type} : List (String × β) → String → Option β
  | [], _ => none
  | (k', v) :: rest, k => if k' = k then some v else mapGet rest k

/-- A write `m[k] = v` of a Go map: the binding of `k` is replaced where it is, a new
key is added. -/
def mapSet {β : Type} : List (String × β) → String → β → List (String × β)
  | [], k, v => [(k, v)]
  | (k', v') :: rest, k, v =>
    if k' = k then (k, v) :: rest else (k', v') :: mapSet rest k v

/-- The keys of a Go map. -/
def mapKeys {β : Type} (m : List (String × β)) : List String :=
  m.map Prod.fst

/-! ## The merged values (`release`, `state`) and `mergo.Merge` -/

/-- Modelled from the spec: the struct `release` is declared outside `cli.go`; these are the
attributes that the data model lists for a Unit (name, target namespace, `enabled` flag,
group tag, chart reference, version, the ordered value-file references and the labels),
with plain Go field types, whose zero values are `""`, `false` and the empty slice. The
data model names no map-valued attribute; the field `SetString`, a `map[string]string`,
stands for the map-valued fields that the override policy speaks of. -/
structure release where
  Name : String
  Namespace : String
  Enabled : Bool
  Group : String
  Chart : String
  Version : String
  ValuesFiles : List String
  Labels : List String
  SetString : List (String × String)
deriving DecidableEq, Repr

/-- The type of `state.Apps`, `map[string]*release`. Every entry is a non-nil pointer to
a release of its own, so the map is modelled by the releases themselves. -/
abbrev AppMap := List (String × release)

/-- Modelled from the spec: the struct `state` is declared outside `cli.go`; it holds the
mapping `Apps` from unit name to unit and the cross-cutting settings, which are kept
abstract (`σ`). -/
structure state (σ : Type) where
  Apps : AppMap
  Settings : σ

/-- The part of mergo's `Config` that the options used in `readState` set:
`mergo.WithOverride` sets `Overwrite`, `mergo.WithAppendSlice` sets `AppendSlice`. -/
structure Config where
  Overwrite : Bool
  AppendSlice : Bool
deriving DecidableEq, Repr

/-- The configuration of `mergo.Merge(dst, src)` without options. -/
def noOptions : Config := ⟨false, false⟩

/-- The configuration of `mergo.Merge(dst, src, mergo.WithAppendSlice, mergo.WithOverride)`. -/
def appendOverride : Config := ⟨true, true⟩

/-- Go's `len` of a string: its number of bytes. -/
def lenString (s : String) : Nat := s.utf8ByteSize

/-- mergo's `isEmptyValue` on a string: `v.Len() == 0`. -/
def isEmptyString (v : String) : Bool := lenString v == 0

/-- mergo's `isEmptyValue` on a bool: `!v.Bool()`. -/
def isEmptyBool (v : Bool) : Bool := !v

/-- mergo's `deepMerge` on a field of scalar kind. Without options it fills an empty
`dst` with a non-empty `src`; `WithOverride` makes it "override non-empty dst attributes
with non-empty src attributes values". An empty `src` never replaces `dst`
(that is the separate option `WithOverwriteWithEmptyValue`, which `readState` does not
pass): `mustSet := (isEmptyValue(dst) || overwrite) && !isEmptyValue(src)`. -/
def deepMergeScalar {α : Type} (isEmptyValue : α → Bool) (config : Config) (dst src : α) : α :=
  if (isEmptyValue dst || config.Overwrite) && !isEmptyValue src then src else dst

/-- mergo's `deepMerge` on a field of slice kind: a non-empty `src` replaces `dst` when
slices are not appended and `dst` is empty or may be overwritten; `WithAppendSlice` makes
it "append slices instead of overwriting it". -/
def deepMergeSlice {α : Type} (config : Config) (dst src : List α) : List α :=
  if !src.isEmpty && (config.Overwrite || dst.isEmpty) && !config.AppendSlice then src
  else if config.AppendSlice then dst ++ src
  else dst

/-- The body of the loop `for _, key := range src.MapKeys()` of mergo's `deepMerge` on
a field of kind `map[string]string`: `srcElement := src.MapIndex(key)` is written to
`dst` when the options allow an overwrite, when `dst` has no entry for the key and
when its entry is empty
(`(srcElement.Kind() != reflect.Ptr && overwrite) || !dstElement.IsValid() ||
isEmptyValue(dstElement)`). -/
def deepMergeMapEntry (config : Config) (src : List (String × String))
    (dst : List (String × String)) (key : String) : List (String × String) :=
  match mapGet src key with
  | none => dst
  | some srcElement =>
    let dstEmpty : Bool :=
      match mapGet dst key with
      | none => true
      | some dstElement => isEmptyString dstElement
    if config.Overwrite || dstEmpty then mapSet dst key srcElement else dst

/-- mergo's `deepMerge` on a field of kind `map[string]string`, over the listed keys. -/
def deepMergeMapKeys (config : Config) (src : List (String × String)) (keys : List String)
    (dst : List (String × String)) : List (String × String) :=
  keys.foldl (deepMergeMapEntry config src) dst

/-- mergo's `deepMerge` on a field of kind `map[string]string`: the maps are merged key
by key, over `src.MapKeys()`, the distinct keys of `src`. An entry of `dst` whose key
`src` does not have is kept. -/
def deepMergeMap (config : Config) (dst src : List (String × String)) :
    List (String × String) :=
  deepMergeMapKeys config src (mapKeys src).dedup dst

/-- mergo's `deepMerge` on two `release` structs: field by field. -/
def deepMergeRelease (config : Config) (dst src : release) : release :=
  { Name := deepMergeScalar isEmptyString config dst.Name src.Name
    Namespace := deepMergeScalar isEmptyString config dst.Namespace src.Namespace
    Enabled := deepMergeScalar isEmptyBool config dst.Enabled src.Enabled
    Group := deepMergeScalar isEmptyString config dst.Group src.Group
    Chart := deepMergeScalar isEmptyString config dst.Chart src.Chart
    Version := deepMergeScalar isEmptyString config dst.Version src.Version
    ValuesFiles := deepMergeSlice config dst.ValuesFiles src.ValuesFiles
    Labels := deepMergeSlice config dst.Labels src.Labels
    SetString := deepMergeMap config dst.SetString src.SetString }

/-- mergo's `deepMerge` on two maps `map[string]*release`: for every key of `src`, a key
that `dst` lacks is added with the element of `src`, and the element of a key that `dst`
has is merged with the one of `src` through the pointers. -/
def deepMergeApps (config : Config) (dst src : AppMap) : AppMap :=
  src.foldl (fun d kv =>
    match mapGet d kv.1 with
    | none => mapSet d kv.1 kv.2
    | some dstElement => mapSet d kv.1 (deepMergeRelease config dstElement kv.2)) dst

/-- Errors are the messages they carry; `fmt.Errorf("...: %w", err)` prepends its text. -/
abbrev Error := String

/-- `mergo.Merge(s, &fileState, ...)` on two `state` structs: field by field, `Apps` by
`deepMergeApps` and the settings by the merge of their own types, which may fail. A
failed merge leaves the state as it was before the call. -/
def deepMergeState {σ : Type} (mergeSettings : Config → σ → σ → Except Error σ)
    (config : Config) (dst src : state σ) : Except Error (state σ) :=
  match mergeSettings config dst.Settings src.Settings with
  | .error err => .error err
  | .ok settings => .ok { Apps := deepMergeApps config dst.Apps src.Apps, Settings := settings }

/-! ## The command line (`cli`) and the collaborators of `cli.go` -/

/-- The type `stringArray`, declared as `[]string`. -/
abbrev stringArray := List String

/-- The struct `cli`. -/
structure cli where
  debug : Bool
  files : fileOptionArray
  spec : String
  envFiles : stringArray
  target : stringArray
  group : stringArray
  kubeconfig : String
  apply : Bool
  destroy : Bool
  dryRun : Bool
  verbose : Bool
  noBanner : Bool
  noColors : Bool
  noFancy : Bool
  noNs : Bool
  nsOverride : String
  contextOverride : String
  skipValidation : Bool
  keepUntrackedReleases : Bool
  showDiff : Bool
  diffContext : Int
  noEnvSubst : Bool
  substEnvValues : Bool
  noSSMSubst : Bool
  substSSMValues : Bool
  updateDeps : Bool
  forceUpgrades : Bool
  renameReplace : Bool
  version : Bool
  noCleanup : Bool
  migrateContext : Bool
  parallel : Int
  alwaysUpgrade : Bool
  noUpdate : Bool
  kubectlDiff : Bool
  checkForChartUpdates : Bool
deriving DecidableEq, Repr

/-- The zero value of `cli`, with the defaults that `parse` registers for the flags
`-diff-context` (-1) and `-p` (1). -/
def cli.default : cli :=
  { debug := false, files := [], spec := "", envFiles := [], target := [], group := [],
    kubeconfig := "", apply := false, destroy := false, dryRun := false, verbose := false,
    noBanner := false, noColors := false, noFancy := false, noNs := false, nsOverride := "",
    contextOverride := "", skipValidation := false, keepUntrackedReleases := false,
    showDiff := false, diffContext := -1, noEnvSubst := false, substEnvValues := false,
    noSSMSubst := false, substSSMValues := false, updateDeps := false,
    forceUpgrades := false, renameReplace := false, version := false, noCleanup := false,
    migrateContext := false, parallel := 1, alwaysUpgrade := false, noUpdate := false,
    kubectlDiff := false, checkForChartUpdates := false }

/-- Modelled from the spec: the entry type of `StateFiles.StateFiles` is declared outside
`cli.go`; a manifest entry names a state source (`Path`, read by `readState`) and
declares its priority. -/
structure StatePath where
  Path : String
  Priority : Int
deriving DecidableEq, Repr

/-- The effects of `parse` and `readState` whose order matters, in the order they happen. -/
inductive Event where
  | printVersion
  | initLogs (verbose noColors : Bool)
  | printBanner
  | getHelmVersion
  | getKubectlVersion
  | setKubeconfig (path : String)
  | toolExists (bin : String)
  | helmPluginExists (plugin : String)
  | godotenvLoad (file : String)
  | wipeTempDir
  | specFromYAML (file : String)
  | isValidFile (name : String)
  | fromFile (name : String)
  | init
  | disableUntargetedApps
  | validate
  | print
deriving DecidableEq, Repr

/-- The functions and the surroundings that `readState` calls and that are declared
outside `cli.go`: the file system and the environment files, the manifest and state
parsers, the merge of the settings of `state`, and the methods `init`,
`disableUntargetedApps` and `validate` of `state`. -/
structure World (σ : Type) where
  statDotEnv : Bool
  godotenvLoad : String → Option Error
  specFromYAML : String → Except Error (List StatePath)
  isValidFile : String → Option Error
  fromFile : String → Except Error (state σ)
  mergeSettings : Config → σ → σ → Except Error σ
  init : state σ → state σ
  disableUntargetedApps : state σ → stringArray → stringArray → state σ
  validate : state σ → Option Error

/-- The constants `kubectlBin` and `helmBin`, declared outside `cli.go`, and the answers
of the tools that `parse` probes: `checkHelmVersion("<3.0.0")`, `ToolExists(kubectlBin)`,
`ToolExists(helmBin)` and `helmPluginExists("diff")`. -/
structure Tools where
  kubectlBin : String
  helmBin : String
  helmOlderThan3 : Bool
  kubectlExists : Bool
  helmExists : Bool
  helmDiffExists : Bool
deriving DecidableEq, Repr

/-- How a call ends: it returns, or the process ends with `os.Exit(code)`, or with
`log.Fatal(message)`. -/
inductive Ending (α : Type) where
  | returned (value : α)
  | exit (code : Nat)
  | fatal (message : String)
deriving DecidableEq, Repr

/-- The result of `parse`: how it ends and what it did until then. -/
structure Parsed where
  ending : Ending cli
  trace : List Event
deriving DecidableEq, Repr

/-! ## `cli.parse` -/

/-- The last part of `parse`, from the probe of `kubectl` on. -/
def parseTools (t : Tools) (c : cli) (trace : List Event) : Parsed :=
  if !t.kubectlExists then
    ⟨.fatal "kubectl is not installed/configured correctly. Aborting!",
      trace ++ [.toolExists t.kubectlBin]⟩
  else if !t.helmExists then
    ⟨.fatal ("" ++ t.helmBin ++ " is not installed/configured correctly. Aborting!"),
      trace ++ [.toolExists t.kubectlBin, .toolExists t.helmBin]⟩
  else if !c.kubectlDiff && !t.helmDiffExists then
    ⟨.returned { c with kubectlDiff := true },
      trace ++ [.toolExists t.kubectlBin, .toolExists t.helmBin, .helmPluginExists "diff"]⟩
  else if !c.kubectlDiff then
    ⟨.returned c,
      trace ++ [.toolExists t.kubectlBin, .toolExists t.helmBin, .helmPluginExists "diff"]⟩
  else
    ⟨.returned c, trace ++ [.toolExists t.kubectlBin, .toolExists t.helmBin]⟩

/-- The method `(c *cli) parse()` after `flag.Parse()` has filled `c`. The check of
`-f` against `-spec` reads the package-level variable `flags`, which is declared outside
`cli.go` and passed here as it is when the check runs. -/
def cli.parse (t : Tools) (flags : cli) (c : cli) : Parsed :=
  if c.version then ⟨.exit 0, [.printVersion]⟩
  else
    let c := if c.noFancy then { c with noColors := true, noBanner := true } else c
    let verbose := c.verbose || c.debug
    let trace := [Event.initLogs verbose c.noColors]
    let trace := if !c.noBanner then trace ++ [Event.printBanner] else trace
    if c.dryRun && c.apply then
      ⟨.fatal "--apply and --dry-run can't be used together.", trace⟩
    else if c.destroy && c.apply then
      ⟨.fatal "--destroy and --apply can't be used together.", trace⟩
    else if c.target.length > 0 && c.group.length > 0 then
      ⟨.fatal "--target and --group can't be used together.", trace⟩
    else if flags.files.length > 0 && lenString flags.spec > 0 then
      ⟨.fatal "-f and -spec can't be used together.", trace⟩
    else
      let c := if c.parallel < 1 then { c with parallel := 1 } else c
      let trace := trace ++ [Event.getHelmVersion]
      if t.helmOlderThan3 then
        ⟨.fatal "this version of Helmsman does not work with helm releases older than 3.0.0",
          trace⟩
      else
        let trace := trace ++ [Event.getKubectlVersion]
        if c.files.length == 0 && lenString c.spec == 0 then ⟨.exit 0, trace⟩
        else if c.kubeconfig != "" then
          parseTools t c (trace ++ [Event.setKubeconfig c.kubeconfig])
        else parseTools t c trace

/-! ## `cli.readState` -/

/-- The loop `for _, e := range c.envFiles` of `readState`: the events and the error it
returns, if any. -/
def loadEnvFiles {σ : Type} (w : World σ) : List String → List Event × Option Error
  | [] => ([], none)
  | e :: rest =>
    match w.godotenvLoad e with
    | some err => ([.godotenvLoad e], some ("error loading " ++ e ++ " env file: " ++ err))
    | none => (.godotenvLoad e :: (loadEnvFiles w rest).1, (loadEnvFiles w rest).2)

/-- The start of `readState`: `.env` is loaded when no `-e` file is given and it exists,
then the `-e` files are loaded. -/
def loadEnv {σ : Type} (w : World σ) (c : cli) : List Event × Option Error :=
  if c.envFiles.length == 0 && w.statDotEnv then
    match w.godotenvLoad ".env" with
    | some err => ([.godotenvLoad ".env"], some ("error loading .env file: " ++ err))
    | none => ([.godotenvLoad ".env"], none)
  else loadEnvFiles w c.envFiles

/-- The loop `for _, val := range sp.StateFiles` of `readState`: each entry gives a
zero-valued `fileOption` whose name is set to `val.Path` and which is appended to
`c.files` when the file is a valid one. The files, the events and the error, if any. -/
def appendSpecFiles {σ : Type} (w : World σ) :
    List StatePath → fileOptionArray → fileOptionArray × List Event × Option Error
  | [], files => (files, [], none)
  | val :: rest, files =>
    let fo : fileOption := { name := val.Path, priority := 0 }
    match w.isValidFile fo.name with
    | some err => (files, [.isValidFile fo.name], some ("invalid -spec file: " ++ err))
    | none =>
      let r := appendSpecFiles w rest (files ++ [fo])
      (r.1, .isValidFile fo.name :: r.2.1, r.2.2)

/-- The block `if len(c.spec) > 0 { ... }` of `readState`: the new `c.files`, the events
and the error, if any. -/
def loadSpec {σ : Type} (w : World σ) (c : cli) : fileOptionArray × List Event × Option Error :=
  if lenString c.spec > 0 then
    match w.specFromYAML c.spec with
    | .error err => (c.files, [.specFromYAML c.spec], some ("error parsing spec file: " ++ err))
    | .ok sp =>
      let r := appendSpecFiles w sp c.files
      match r.2.2 with
      | some err => (r.1, .specFromYAML c.spec :: r.2.1, some err)
      | none => (fileOptionArray.sort r.1, .specFromYAML c.spec :: r.2.1, none)
  else (c.files, [], none)

/-- The loop `for appName, app := range fileState.Apps` of `readState`: a unit whose name
the state already has is merged into the existing one, with the append and override
options. The merge of two non-nil releases returns no error. -/
def mergeExistingApps (apps fileApps : AppMap) : AppMap :=
  fileApps.foldl (fun acc kv =>
    match mapGet acc kv.1 with
    | some existing => mapSet acc kv.1 (deepMergeRelease appendOverride existing kv.2)
    | none => acc) apps

/-- The body of the loop over `c.files` in `readState` after the file is parsed: the
units that exist are merged, the map of units is merged without options, `fileState.Apps`
is replaced by an empty map and the rest is merged. The state and the error, if any. -/
def mergeFile {σ : Type} (w : World σ) (name : String) (s fileState : state σ) :
    state σ × Option Error :=
  let s1 : state σ := { s with Apps := mergeExistingApps s.Apps fileState.Apps }
  let s2 : state σ := { s1 with Apps := deepMergeApps noOptions s1.Apps fileState.Apps }
  let fileState : state σ := { fileState with Apps := [] }
  match deepMergeState w.mergeSettings appendOverride s2 fileState with
  | .error err => (s2, some ("failed to merge desired state file " ++ name ++ ": " ++ err))
  | .ok s3 => (s3, none)

/-- What a part of `readState` leaves: the state behind `s`, the error it returns, if
any, and the events. -/
structure Folded (σ : Type) where
  s : state σ
  err : Option Error
  trace : List Event

/-- The loop `for _, f := range c.files` of `readState`. -/
def foldFiles {σ : Type} (w : World σ) : List fileOption → state σ → Folded σ
  | [], s => ⟨s, none, []⟩
  | f :: rest, s =>
    match w.fromFile f.name with
    | .error err => ⟨s, some err, [.fromFile f.name]⟩
    | .ok fileState =>
      match mergeFile w f.name s fileState with
      | (s, some err) => ⟨s, some err, [.fromFile f.name]⟩
      | (s, none) =>
        let r := foldFiles w rest s
        ⟨r.s, r.err, .fromFile f.name :: r.trace⟩

/-- The end of `readState`, from `s.init()` on. -/
def finish {σ : Type} (w : World σ) (c : cli) (files : fileOptionArray) (s : state σ) :
    Folded σ :=
  let s := w.init s
  let s := w.disableUntargetedApps s c.group c.target
  let trace := [Event.init, Event.disableUntargetedApps]
  if !c.skipValidation then
    if files.length > 0 then
      match w.validate s with
      | some err => ⟨s, some err, trace ++ [.validate]⟩
      | none => ⟨s, none, if c.debug then trace ++ [.validate, .print] else trace ++ [.validate]⟩
    else ⟨s, none, if c.debug then trace ++ [.print] else trace⟩
  else ⟨s, none, if c.debug then trace ++ [.print] else trace⟩

/-- What `readState` leaves: the state behind `s`, `c.files`, the error it returns, if
any, and the events. -/
structure Outcome (σ : Type) where
  s : state σ
  files : fileOptionArray
  err : Option Error
  trace : List Event

/-- The method `(c *cli) readState(s *state) error`. -/
def cli.readState {σ : Type} (w : World σ) (c : cli) (s : state σ) : Outcome σ :=
  match loadEnv w c with
  | (t1, some err) => ⟨s, c.files, some err, t1⟩
  | (t1, none) =>
    match loadSpec w c with
    | (files, t2, some err) => ⟨s, files, some err, t1 ++ [.wipeTempDir] ++ t2⟩
    | (files, t2, none) =>
      let folded := foldFiles w files s
      match folded.err with
      | some err => ⟨folded.s, files, some err, t1 ++ [.wipeTempDir] ++ t2 ++ folded.trace⟩
      | none =>
        let r := finish w c files folded.s
        ⟨r.s, files, r.err, t1 ++ [.wipeTempDir] ++ t2 ++ folded.trace ++ r.trace⟩

/-! ## Concrete inputs -/

/-- The state of a fresh `var s state` without settings: no unit. -/
def emptyState : state Unit := ⟨[], ()⟩

/-- A state source that declares the given units and no settings. -/
def sourceOf (apps : AppMap) : state Unit := ⟨apps, ()⟩

/-- A world with the manifest entries `manifest` behind every `-spec` file and the
state sources `sources` by file name; a file that is not listed cannot be parsed. No
`.env` file exists, every file name is valid, the merge of the settings succeeds, and
`init`, `disableUntargetedApps` and `validate` leave the state as it is. -/
def worldOf (manifest : List StatePath) (sources : List (String × state Unit)) : World Unit :=
  { statDotEnv := false
    godotenvLoad := fun _ => none
    specFromYAML := fun _ => .ok manifest
    isValidFile := fun _ => none
    fromFile := fun name =>
      match mapGet sources name with
      | some fileState => .ok fileState
      | none => .error ("cannot parse " ++ name)
    mergeSettings := fun _ _ _ => .ok ()
    init := fun s => s
    disableUntargetedApps := fun s _ _ => s
    validate := fun _ => none }

/-- The unit "app1" of chart "nginx" at version `version`, enabled or not, with the
value files `valuesFiles` and no entry in `SetString`. -/
def app1 (version : String) (enabled : Bool) (valuesFiles : List String) : release :=
  { Name := "app1", Namespace := "", Enabled := enabled, Group := "", Chart := "nginx",
    Version := version, ValuesFiles := valuesFiles, Labels := [], SetString := [] }

/-- The unit "app1" of chart "nginx", enabled, with the entries `setString` in
`SetString`. -/
def app1Set (setString : List (String × String)) : release :=
  { app1 "1" true [] with SetString := setString }

/-- The events of a trace that parse a state source. -/
def parsedFiles (trace : List Event) : List String :=
  trace.filterMap (fun ev => match ev with
    | .fromFile name => some name
    | _ => none)

/-! # Theorems

## Properties of the stable sort -/

theorem insertBack_perm {α : Type} (less : α → α → Bool) (x : α) (l : List α) :
    (insertBack less x l).Perm (x :: l) := by
  induction l with
  | nil => simp [insertBack]
  | cons y ys ih =>
    unfold insertBack
    split
    · exact (List.Perm.cons y ih).trans (List.Perm.swap x y ys)
    · exact List.Perm.refl _

theorem foldl_insertBack_perm {α : Type} (less : α → α → Bool) (x : List α) :
    ∀ block : List α,
      (x.foldl (fun sortedBlock e => insertBack less e sortedBlock) block).Perm (x ++ block) := by
  induction x with
  | nil => intro block; simp
  | cons e es ih =>
    intro block
    simp only [List.foldl_cons]
    refine (ih _).trans ?_
    refine (List.Perm.append_left es (insertBack_perm less e block)).trans ?_
    exact List.perm_middle

theorem sliceStable_perm {α : Type} (less : α → α → Bool) (x : List α) :
    (sliceStable less x).Perm x := by
  unfold sliceStable
  refine (List.reverse_perm _).trans ?_
  simpa using foldl_insertBack_perm less x []

theorem insertBack_descending (x : fileOption) (l : List fileOption)
    (h : l.Pairwise (fun a b => b.priority ≤ a.priority)) :
    (insertBack priorityLess x l).Pairwise (fun a b => b.priority ≤ a.priority) := by
  induction l with
  | nil => simp [insertBack]
  | cons y ys ih =>
    rw [List.pairwise_cons] at h
    unfold insertBack
    by_cases hxy : priorityLess x y = true
    · rw [if_pos hxy, List.pairwise_cons]
      refine ⟨?_, ih h.2⟩
      intro z hz
      rcases List.mem_cons.mp ((insertBack_perm priorityLess x ys).mem_iff.mp hz) with hz | hz
      · rw [hz]
        have : x.priority < y.priority := by simpa [priorityLess] using hxy
        omega
      · exact h.1 z hz
    · rw [if_neg hxy, List.pairwise_cons, List.pairwise_cons]
      have hyx : y.priority ≤ x.priority := by
        have : ¬ x.priority < y.priority := by simpa [priorityLess] using hxy
        omega
      refine ⟨?_, h.1, h.2⟩
      intro z hz
      rcases List.mem_cons.mp hz with hz | hz
      · rw [hz]; exact hyx
      · exact le_trans (h.1 z hz) hyx

theorem foldl_insertBack_descending (x : List fileOption) :
    ∀ block : List fileOption, block.Pairwise (fun a b => b.priority ≤ a.priority) →
      (x.foldl (fun sortedBlock e => insertBack priorityLess e sortedBlock) block).Pairwise
        (fun a b => b.priority ≤ a.priority) := by
  induction x with
  | nil => intro block h; exact h
  | cons e es ih =>
    intro block h
    simp only [List.foldl_cons]
    exact ih _ (insertBack_descending e block h)

theorem sort_ascending (f : fileOptionArray) :
    (fileOptionArray.sort f).Pairwise (fun a b => a.priority ≤ b.priority) := by
  unfold fileOptionArray.sort sliceStable
  rw [List.pairwise_reverse]
  exact foldl_insertBack_descending f [] List.Pairwise.nil

theorem withPriority_insertBack (p : Int) (x : fileOption) (l : List fileOption) :
    withPriority p (insertBack priorityLess x l) = withPriority p (x :: l) := by
  induction l with
  | nil => simp [insertBack]
  | cons y ys ih =>
    unfold insertBack
    by_cases hxy : priorityLess x y = true
    · rw [if_pos hxy]
      have hlt : x.priority < y.priority := by simpa [priorityLess] using hxy
      unfold withPriority at ih ⊢
      rw [List.filter_cons, ih]
      by_cases hx : x.priority = p
      · have hy : ¬ y.priority = p := by omega
        simp [List.filter_cons, hx, hy]
      · by_cases hy : y.priority = p
        · simp [List.filter_cons, hx, hy]
        · simp [List.filter_cons, hx, hy]
    · rw [if_neg hxy]

theorem withPriority_foldl_insertBack (p : Int) (x : List fileOption) :
    ∀ block : List fileOption,
      withPriority p (x.foldl (fun sortedBlock e => insertBack priorityLess e sortedBlock) block)
        = (withPriority p x).reverse ++ withPriority p block := by
  induction x with
  | nil => intro block; simp [withPriority]
  | cons e es ih =>
    intro block
    simp only [List.foldl_cons]
    rw [ih, withPriority_insertBack]
    unfold withPriority
    by_cases he : e.priority = p
    · simp [List.filter_cons, he]
    · simp [List.filter_cons, he]

theorem withPriority_sort (p : Int) (f : fileOptionArray) :
    withPriority p (fileOptionArray.sort f) = withPriority p f := by
  unfold fileOptionArray.sort sliceStable
  have h := withPriority_foldl_insertBack p f []
  unfold withPriority at h ⊢
  rw [List.filter_reverse, h]
  simp

theorem withPriority_head (x : fileOption) (l : List fileOption) :
    withPriority x.priority (x :: l) = x :: withPriority x.priority l := by
  simp [withPriority, List.filter_cons]

theorem mem_withPriority_self {x : fileOption} {l : List fileOption} (h : x ∈ l) :
    x ∈ withPriority x.priority l := by
  simp [withPriority, h]

theorem mem_of_mem_withPriority {p : Int} {x : fileOption} {l : List fileOption}
    (h : x ∈ withPriority p l) : x ∈ l :=
  (List.mem_filter.mp h).1

/-- Two arrays in ascending order of priority that list the descriptors of each
priority in the same order are the same array: a stable sort has one outcome. -/
theorem stable_sort_unique :
    ∀ g h : List fileOption,
      g.Pairwise (fun a b => a.priority ≤ b.priority) →
      h.Pairwise (fun a b => a.priority ≤ b.priority) →
      (∀ p, withPriority p g = withPriority p h) → g = h := by
  intro g
  induction g with
  | nil =>
    intro h _ _ heq
    cases h with
    | nil => rfl
    | cons y h' =>
      have := heq y.priority
      rw [withPriority_head] at this
      simp [withPriority] at this
  | cons x g' ih =>
    intro h hg hh heq
    cases h with
    | nil =>
      have := heq x.priority
      rw [withPriority_head] at this
      simp [withPriority] at this
    | cons y h' =>
      rw [List.pairwise_cons] at hg hh
      have hxy : x = y := by
        by_cases hp : x.priority = y.priority
        · have h1 := heq x.priority
          rw [withPriority_head] at h1
          rw [hp, withPriority_head] at h1
          exact (List.cons.inj h1).1
        · exfalso
          have hx : x ∈ y :: h' := by
            apply mem_of_mem_withPriority (p := x.priority)
            rw [← heq]
            exact mem_withPriority_self (List.mem_cons_self x g')
          have hy : y ∈ x :: g' := by
            apply mem_of_mem_withPriority (p := y.priority)
            rw [heq]
            exact mem_withPriority_self (List.mem_cons_self y h')
          rcases List.mem_cons.mp hx with hx | hx
          · exact hp (by rw [hx])
          · rcases List.mem_cons.mp hy with hy | hy
            · exact hp (by rw [hy])
            · have h1 := hh.1 x hx
              have h2 := hg.1 y hy
              omega
      subst hxy
      congr 1
      apply ih h' hg.2 hh.2
      intro p
      have h1 := heq p
      unfold withPriority at h1 ⊢
      by_cases hp : x.priority = p
      · simpa [List.filter_cons, hp] using h1
      · simpa [List.filter_cons, hp] using h1

/-- Whatever stable sorting procedure the library runs, its result is the one of
`fileOptionArray.sort`. -/
theorem sort_eq_of_stable (f g : fileOptionArray)
    (hsorted : g.Pairwise (fun a b => a.priority ≤ b.priority))
    (hstable : ∀ p, withPriority p g = withPriority p f) :
    g = fileOptionArray.sort f :=
  stable_sort_unique g (fileOptionArray.sort f) hsorted (sort_ascending f)
    (fun p => (hstable p).trans (withPriority_sort p f).symm)

theorem sort_priorities_sorted (f : fileOptionArray) :
    ((fileOptionArray.sort f).map fileOption.priority).Sorted (· ≤ ·) := by
  unfold List.Sorted
  rw [List.pairwise_map]
  exact sort_ascending f

theorem sort_perm (f : fileOptionArray) : (fileOptionArray.sort f).Perm f :=
  sliceStable_perm priorityLess f

theorem sort_eq_self_of_same_priority (f : fileOptionArray) (p : Int)
    (h : ∀ o ∈ f, o.priority = p) : fileOptionArray.sort f = f := by
  have h1 : withPriority p f = f := by
    unfold withPriority
    rw [List.filter_eq_self]
    intro o ho
    simpa using h o ho
  have h2 : withPriority p (fileOptionArray.sort f) = fileOptionArray.sort f := by
    unfold withPriority
    rw [List.filter_eq_self]
    intro o ho
    simpa using h o ((sort_perm f).mem_iff.mp ho)
  rw [← h2, withPriority_sort, h1]

theorem setAll_eq (values : List String) :
    setAll values = values.map (fun v => (⟨v, 0⟩ : fileOption)) := by
  have key : ∀ (vs : List String) (acc : fileOptionArray),
      vs.foldl (fun f v => (fileOptionArray.Set f v).1) acc
        = acc ++ vs.map (fun v => (⟨v, 0⟩ : fileOption)) := by
    intro vs
    induction vs with
    | nil => intro acc; simp
    | cons v vs ih =>
      intro acc
      simp only [List.foldl_cons, List.map_cons]
      rw [ih]
      simp [fileOptionArray.Set]
  simpa [setAll] using key values []

theorem foldl_names (f : fileOptionArray) :
    ∀ acc : List String,
      f.foldl (fun a v => a ++ [v.name]) acc = acc ++ f.map fileOption.name := by
  induction f with
  | nil => intro acc; simp
  | cons o f ih =>
    intro acc
    simp only [List.foldl_cons, List.map_cons]
    rw [ih]
    simp

/-! ## The claims on the ordering of the files -/

/-- C2: after `f.sort()` the array is a permutation of its original elements and its
priorities are in ascending (non-decreasing) order; every ordering of three descriptors
with the priorities 0, -20 and -10 is sorted to the priority sequence [-20, -10, 0]. -/
theorem sort_is_sorted_permutation (f : fileOptionArray) :
    (fileOptionArray.sort f).Perm f ∧
    ((fileOptionArray.sort f).map fileOption.priority).Sorted (· ≤ ·) ∧
    (∀ (n₁ n₂ n₃ : String) (g : fileOptionArray),
      g.Perm [⟨n₁, 0⟩, ⟨n₂, -20⟩, ⟨n₃, -10⟩] →
        (fileOptionArray.sort g).map fileOption.priority = [-20, -10, 0]) := by
  refine ⟨sort_perm f, sort_priorities_sorted f, ?_⟩
  intro n₁ n₂ n₃ g hg
  apply List.eq_of_perm_of_sorted (r := (· ≤ ·)) _ (sort_priorities_sorted g)
  · unfold List.Sorted
    decide
  · have h1 := ((sort_perm g).trans hg).map fileOption.priority
    refine h1.trans ?_
    simp only [List.map_cons, List.map_nil]
    exact (List.Perm.swap (-20) 0 [-10]).trans
      (List.Perm.cons (-20) (List.Perm.swap (-10) 0 []))

/-- The seed test `Test_specFileSort`: third.yaml (0), first.yaml (-20) and second.yaml
(-10) are sorted to the priorities [-20, -10, 0]. -/
theorem sort_is_sorted_permutation_witness :
    (fileOptionArray.sort [⟨"third.yaml", 0⟩, ⟨"first.yaml", -20⟩, ⟨"second.yaml", -10⟩]).map
      fileOption.priority = [-20, -10, 0] :=
  (sort_is_sorted_permutation []).2.2 "third.yaml" "first.yaml" "second.yaml"
    [⟨"third.yaml", 0⟩, ⟨"first.yaml", -20⟩, ⟨"second.yaml", -10⟩] (List.Perm.refl _)

/-- C3: `fileOptionArray.sort` is stable: the descriptors of each priority are listed in
the same order before and after `sort()`, so of two descriptors of equal priority the one
that came first still comes first; an array whose descriptors all have the same priority
is left unchanged. -/
theorem sort_is_stable (f : fileOptionArray) :
    (∀ p : Int, withPriority p (fileOptionArray.sort f) = withPriority p f) ∧
    (∀ a b : fileOption, a.priority = b.priority →
      [a, b].Sublist f → [a, b].Sublist (fileOptionArray.sort f)) ∧
    (∀ p : Int, (∀ o ∈ f, o.priority = p) → fileOptionArray.sort f = f) := by
  refine ⟨fun p => withPriority_sort p f, ?_, fun p h => sort_eq_self_of_same_priority f p h⟩
  intro a b hab hsub
  have h1 : (withPriority a.priority [a, b]).Sublist (withPriority a.priority f) :=
    List.Sublist.filter _ hsub
  have h2 : withPriority a.priority [a, b] = [a, b] := by
    simp [withPriority, List.filter_cons, hab]
  rw [h2, ← withPriority_sort] at h1
  exact h1.trans (List.filter_sublist _)

/-- Of two descriptors of priority 5 around one of priority 1, "a" stays before "b". -/
theorem sort_is_stable_witness :
    [(⟨"a", 5⟩ : fileOption), ⟨"b", 5⟩].Sublist
      (fileOptionArray.sort [⟨"a", 5⟩, ⟨"c", 1⟩, ⟨"b", 5⟩]) :=
  (sort_is_stable [⟨"a", 5⟩, ⟨"c", 1⟩, ⟨"b", 5⟩]).2.1 ⟨"a", 5⟩ ⟨"b", 5⟩ rfl
    (List.Sublist.cons₂ _ (List.Sublist.cons _ (List.Sublist.refl _)))

/-- C10: `f.Set(v)` returns no error and leaves the previous array followed by one new
descriptor of name `v` and priority 0; an array built by `Set` alone has the supplied
names in their order, all of priority 0, is left unchanged by `sort()`, and `String()`
lists the names in the order they were supplied. -/
theorem Set_appends_with_priority_zero (f : fileOptionArray) (v : String) :
    fileOptionArray.Set f v = (f ++ [⟨v, 0⟩], none) ∧
    (∀ values : List String,
      setAll values = values.map (fun n => (⟨n, 0⟩ : fileOption)) ∧
      fileOptionArray.sort (setAll values) = setAll values ∧
      fileOptionArray.String (setAll values) = stringsJoin values " ") := by
  refine ⟨rfl, fun values => ⟨setAll_eq values, ?_, ?_⟩⟩
  · apply sort_eq_self_of_same_priority _ 0
    intro o ho
    rw [setAll_eq] at ho
    obtain ⟨n, _, hn⟩ := List.mem_map.mp ho
    rw [← hn]
  · unfold fileOptionArray.String
    rw [foldl_names, setAll_eq]
    simp [Function.comp_def]

/-! ## Properties of the Go maps -/

theorem mapGet_mapSet {β : Type} (m : List (String × β)) (k : String) (v : β) (k' : String) :
    mapGet (mapSet m k v) k' = if k = k' then some v else mapGet m k' := by
  induction m with
  | nil => simp [mapSet, mapGet]
  | cons e rest ih =>
    obtain ⟨k₀, v₀⟩ := e
    unfold mapSet
    by_cases h : k₀ = k
    · subst h
      simp only [if_true]
      by_cases h' : k₀ = k'
      · simp [mapGet, h']
      · simp [mapGet, h']
    · simp only [if_neg h]
      by_cases h' : k₀ = k'
      · subst h'
        have hne : ¬ k = k₀ := fun e => h e.symm
        simp [mapGet, hne]
      · simp only [mapGet, if_neg h']
        exact ih

theorem mem_mapKeys_iff {β : Type} (m : List (String × β)) (k : String) :
    k ∈ mapKeys m ↔ mapGet m k ≠ none := by
  induction m with
  | nil => simp [mapKeys, mapGet]
  | cons e rest ih =>
    obtain ⟨k₀, v₀⟩ := e
    by_cases h : k₀ = k
    · simp [mapKeys, mapGet, h]
    · have hne : ¬ k = k₀ := fun e => h e.symm
      simp only [mapKeys, List.map_cons, List.mem_cons, hne, false_or, mapGet, if_neg h]
      exact ih

theorem mapGet_eq_none_of_not_mem {β : Type} (m : List (String × β)) (k : String)
    (h : k ∉ mapKeys m) : mapGet m k = none := by
  by_contra hne
  exact h ((mem_mapKeys_iff m k).mpr hne)

theorem mem_mapKeys_mapSet {β : Type} (m : List (String × β)) (k : String) (v : β)
    (k' : String) : k' ∈ mapKeys (mapSet m k v) ↔ k' = k ∨ k' ∈ mapKeys m := by
  rw [mem_mapKeys_iff, mem_mapKeys_iff, mapGet_mapSet]
  by_cases h : k = k'
  · simp [h]
  · have hne : ¬ k' = k := fun e => h e.symm
    simp [h, hne]

theorem mapKeys_mapSet_nodup {β : Type} (m : List (String × β)) (k : String) (v : β)
    (h : (mapKeys m).Nodup) : (mapKeys (mapSet m k v)).Nodup := by
  induction m with
  | nil => simp [mapSet, mapKeys]
  | cons e rest ih =>
    obtain ⟨k₀, v₀⟩ := e
    have h' : k₀ ∉ mapKeys rest ∧ (mapKeys rest).Nodup := by
      simpa [mapKeys] using h
    unfold mapSet
    by_cases hk : k₀ = k
    · subst hk
      simpa [mapKeys] using h
    · simp only [if_neg hk]
      have hmem : k₀ ∉ mapKeys (mapSet rest k v) := by
        rw [mem_mapKeys_mapSet]
        intro hcon
        rcases hcon with hcon | hcon
        · exact hk hcon
        · exact h'.1 hcon
      have := ih h'.2
      simp only [mapKeys, List.map_cons, List.nodup_cons]
      exact ⟨hmem, this⟩

/-! ## Properties of the merges -/

theorem mem_mapKeys_mergeExistingApps (fileApps : AppMap) :
    ∀ (apps : AppMap) (k : String),
      k ∈ mapKeys (mergeExistingApps apps fileApps) ↔ k ∈ mapKeys apps := by
  induction fileApps with
  | nil => intro apps k; simp [mergeExistingApps]
  | cons e rest ih =>
    intro apps k
    unfold mergeExistingApps at ih ⊢
    simp only [List.foldl_cons]
    rw [ih]
    cases hg : mapGet apps e.1 with
    | none => simp
    | some existing =>
      simp only
      rw [mem_mapKeys_mapSet]
      constructor
      · intro h
        rcases h with h | h
        · rw [h, mem_mapKeys_iff, hg]; simp
        · exact h
      · intro h; exact Or.inr h

theorem mapKeys_mergeExistingApps_nodup (fileApps : AppMap) :
    ∀ apps : AppMap, (mapKeys apps).Nodup → (mapKeys (mergeExistingApps apps fileApps)).Nodup := by
  induction fileApps with
  | nil => intro apps h; simpa [mergeExistingApps] using h
  | cons e rest ih =>
    intro apps h
    unfold mergeExistingApps at ih ⊢
    simp only [List.foldl_cons]
    apply ih
    cases mapGet apps e.1 with
    | none => exact h
    | some existing => exact mapKeys_mapSet_nodup _ _ _ h

theorem mem_mapKeys_deepMergeApps (config : Config) (src : AppMap) :
    ∀ (dst : AppMap) (k : String),
      k ∈ mapKeys (deepMergeApps config dst src) ↔ k ∈ mapKeys dst ∨ k ∈ mapKeys src := by
  induction src with
  | nil => intro dst k; simp [deepMergeApps, mapKeys]
  | cons e rest ih =>
    intro dst k
    unfold deepMergeApps at ih ⊢
    simp only [List.foldl_cons]
    rw [ih]
    have hkeys : k ∈ mapKeys (e :: rest) ↔ k = e.1 ∨ k ∈ mapKeys rest := by
      simp [mapKeys]
    rw [hkeys]
    cases hg : mapGet dst e.1 with
    | none =>
      simp only
      rw [mem_mapKeys_mapSet]
      tauto
    | some dstElement =>
      simp only
      rw [mem_mapKeys_mapSet]
      have : k = e.1 → k ∈ mapKeys dst := by
        intro h
        rw [h, mem_mapKeys_iff, hg]; simp
      tauto

theorem mapKeys_deepMergeApps_nodup (config : Config) (src : AppMap) :
    ∀ dst : AppMap, (mapKeys dst).Nodup → (mapKeys (deepMergeApps config dst src)).Nodup := by
  induction src with
  | nil => intro dst h; simpa [deepMergeApps] using h
  | cons e rest ih =>
    intro dst h
    unfold deepMergeApps at ih ⊢
    simp only [List.foldl_cons]
    apply ih
    cases mapGet dst e.1 with
    | none => exact mapKeys_mapSet_nodup _ _ _ h
    | some dstElement => exact mapKeys_mapSet_nodup _ _ _ h

/-- What the loop over `fileState.Apps` leaves under each name, for a map of units with
distinct keys: the merged unit where both sides have the name, the previous entry
elsewhere. -/
theorem mapGet_mergeExistingApps (fileApps : AppMap) :
    (mapKeys fileApps).Nodup → ∀ (apps : AppMap) (k : String),
      mapGet (mergeExistingApps apps fileApps) k =
        match mapGet apps k, mapGet fileApps k with
        | some existing, some app => some (deepMergeRelease appendOverride existing app)
        | previous, _ => previous := by
  induction fileApps with
  | nil =>
    intro _ apps k
    cases h : mapGet apps k <;> simp [mergeExistingApps, mapGet, h]
  | cons e rest ih =>
    intro hnd apps k
    obtain ⟨k₀, v₀⟩ := e
    have hnd' : k₀ ∉ mapKeys rest ∧ (mapKeys rest).Nodup := by
      simpa [mapKeys] using hnd
    unfold mergeExistingApps at ih ⊢
    simp only [List.foldl_cons]
    rw [ih hnd'.2]
    by_cases hk : k₀ = k
    · subst hk
      rw [mapGet_eq_none_of_not_mem rest k₀ hnd'.1]
      cases hg : mapGet apps k₀ with
      | none => simp [mapGet, hg]
      | some existing => simp [mapGet, hg, mapGet_mapSet]
    · have hfile : mapGet ((k₀, v₀) :: rest) k = mapGet rest k := by
        simp [mapGet, hk]
      rw [hfile]
      cases hg : mapGet apps k₀ with
      | none => simp
      | some existing => simp [mapGet_mapSet, hk]

/-- What mergo's merge of two maps of units leaves under each name, for a source with
distinct keys. -/
theorem mapGet_deepMergeApps (config : Config) (src : AppMap) :
    (mapKeys src).Nodup → ∀ (dst : AppMap) (k : String),
      mapGet (deepMergeApps config dst src) k =
        match mapGet dst k, mapGet src k with
        | some dstElement, some srcElement => some (deepMergeRelease config dstElement srcElement)
        | none, some srcElement => some srcElement
        | previous, none => previous := by
  induction src with
  | nil =>
    intro _ dst k
    cases h : mapGet dst k <;> simp [deepMergeApps, mapGet, h]
  | cons e rest ih =>
    intro hnd dst k
    obtain ⟨k₀, v₀⟩ := e
    have hnd' : k₀ ∉ mapKeys rest ∧ (mapKeys rest).Nodup := by
      simpa [mapKeys] using hnd
    unfold deepMergeApps at ih ⊢
    simp only [List.foldl_cons]
    rw [ih hnd'.2]
    by_cases hk : k₀ = k
    · subst hk
      rw [mapGet_eq_none_of_not_mem rest k₀ hnd'.1]
      cases hg : mapGet dst k₀ with
      | none => simp [mapGet, hg, mapGet_mapSet]
      | some dstElement => simp [mapGet, hg, mapGet_mapSet]
    · have hfile : mapGet ((k₀, v₀) :: rest) k = mapGet rest k := by
        simp [mapGet, hk]
      rw [hfile]
      cases hg : mapGet dst k₀ with
      | none => simp [mapGet_mapSet, hk]
      | some dstElement => simp [mapGet_mapSet, hk]

theorem lenString_eq_zero (s : String) : lenString s = 0 ↔ s = "" := by
  obtain ⟨cs⟩ := s
  cases cs with
  | nil => simp [lenString, String.utf8ByteSize, String.utf8ByteSize.go]
  | cons c cs =>
    have hpos := Char.utf8Size_pos c
    have hne : (⟨c :: cs⟩ : String) ≠ "" := by
      intro h
      have := congrArg String.data h
      simp at this
    simp only [lenString, String.utf8ByteSize, String.utf8ByteSize.go, hne, iff_false]
    omega

theorem isEmptyString_iff (v : String) : isEmptyString v = true ↔ v = "" := by
  simp [isEmptyString, lenString_eq_zero]

theorem deepMergeString_appendOverride (dst src : String) :
    deepMergeScalar isEmptyString appendOverride dst src = if src = "" then dst else src := by
  unfold deepMergeScalar
  by_cases h : src = ""
  · have : isEmptyString src = true := (isEmptyString_iff src).mpr h
    rw [if_pos h, this]
    simp
  · have : isEmptyString src = false := by
      rw [← Bool.not_eq_true, isEmptyString_iff]; exact h
    simp [this, h, appendOverride]

theorem deepMergeBool_appendOverride (dst src : Bool) :
    deepMergeScalar isEmptyBool appendOverride dst src = if src = false then dst else src := by
  cases dst <;> cases src <;> rfl

theorem deepMergeSlice_appendOverride {α : Type} (dst src : List α) :
    deepMergeSlice appendOverride dst src = dst ++ src := by
  simp [deepMergeSlice, appendOverride]

theorem mapSet_of_mapGet {β : Type} (m : List (String × β)) (k : String) (v : β)
    (h : mapGet m k = some v) : mapSet m k v = m := by
  induction m with
  | nil => simp [mapGet] at h
  | cons e rest ih =>
    obtain ⟨k₀, v₀⟩ := e
    unfold mapSet
    by_cases hk : k₀ = k
    · subst hk
      simp only [mapGet, if_true, Option.some.injEq] at h
      simp [h]
    · simp only [mapGet, if_neg hk] at h
      simp only [if_neg hk, ih h]

/-- The merge of a map field changes the entries of the listed keys only. -/
theorem mapGet_deepMergeMapKeys_of_not_mem (config : Config) (src : List (String × String))
    (keys : List String) :
    ∀ (dst : List (String × String)) (k : String), k ∉ keys →
      mapGet (deepMergeMapKeys config src keys dst) k = mapGet dst k := by
  induction keys with
  | nil => intro dst k _; rfl
  | cons key rest ih =>
    intro dst k hk
    have hk' : ¬ k = key ∧ k ∉ rest := by simpa using hk
    unfold deepMergeMapKeys at ih ⊢
    simp only [List.foldl_cons]
    rw [ih _ k hk'.2]
    unfold deepMergeMapEntry
    cases mapGet src key with
    | none => rfl
    | some srcElement =>
      have hne : ¬ key = k := fun e => hk'.1 e.symm
      simp only
      split
      · rw [mapGet_mapSet, if_neg hne]
      · rfl

/-- With the override option, every listed key that the source has holds the entry of
the source after the merge of a map field. -/
theorem mapGet_deepMergeMapKeys_of_mem (src : List (String × String)) (keys : List String) :
    ∀ (dst : List (String × String)) (k : String) (v : String), k ∈ keys →
      mapGet src k = some v →
        mapGet (deepMergeMapKeys appendOverride src keys dst) k = some v := by
  induction keys with
  | nil => intro dst k v hk; simp at hk
  | cons key rest ih =>
    intro dst k v hk hv
    by_cases hrest : k ∈ rest
    · unfold deepMergeMapKeys at ih ⊢
      simp only [List.foldl_cons]
      exact ih _ k v hrest hv
    · have hkey : k = key := by
        rcases List.mem_cons.mp hk with h | h
        · exact h
        · exact absurd h hrest
      subst hkey
      have hstep : deepMergeMapKeys appendOverride src (k :: rest) dst
          = deepMergeMapKeys appendOverride src rest
              (deepMergeMapEntry appendOverride src dst k) := rfl
      rw [hstep, mapGet_deepMergeMapKeys_of_not_mem appendOverride src rest _ k hrest]
      unfold deepMergeMapEntry
      simp only [hv, appendOverride, Bool.true_or, if_true]
      rw [mapGet_mapSet, if_pos rfl]

/-- A map field that already holds the entries of the source under the listed keys is
left as it is by a merge over these keys. -/
theorem deepMergeMapKeys_of_agree (config : Config) (src : List (String × String))
    (keys : List String) (dst : List (String × String))
    (h : ∀ k ∈ keys, mapGet dst k = mapGet src k) :
    deepMergeMapKeys config src keys dst = dst := by
  induction keys with
  | nil => rfl
  | cons key rest ih =>
    have hstep : deepMergeMapEntry config src dst key = dst := by
      unfold deepMergeMapEntry
      cases hs : mapGet src key with
      | none => rfl
      | some srcElement =>
        have hd : mapGet dst key = some srcElement := by
          rw [h key (List.mem_cons_self _ _), hs]
        simp only
        split
        · exact mapSet_of_mapGet dst key srcElement hd
        · rfl
    unfold deepMergeMapKeys at ih ⊢
    simp only [List.foldl_cons]
    rw [hstep]
    exact ih (fun k hk => h k (List.mem_cons_of_mem _ hk))

/-- The entries of a map field after the merge with the override option: the entry of
the source under every key that the source has, the previous entry under the others. -/
theorem mapGet_deepMergeMap_appendOverride (dst src : List (String × String)) (k : String) :
    mapGet (deepMergeMap appendOverride dst src) k =
      match mapGet src k with
      | some v => some v
      | none => mapGet dst k := by
  unfold deepMergeMap
  cases hs : mapGet src k with
  | some v =>
    have hk : k ∈ (mapKeys src).dedup := by
      rw [List.mem_dedup, mem_mapKeys_iff, hs]
      simp
    exact mapGet_deepMergeMapKeys_of_mem src _ dst k v hk hs
  | none =>
    have hk : k ∉ (mapKeys src).dedup := by
      rw [List.mem_dedup, mem_mapKeys_iff, hs]
      simp
    exact mapGet_deepMergeMapKeys_of_not_mem appendOverride src _ dst k hk

theorem deepMergeMap_noOptions_after (dst src : List (String × String)) :
    deepMergeMap noOptions (deepMergeMap appendOverride dst src) src
      = deepMergeMap appendOverride dst src := by
  unfold deepMergeMap
  apply deepMergeMapKeys_of_agree
  intro k hk
  have hk' : mapGet src k ≠ none := by
    rw [← mem_mapKeys_iff, ← List.mem_dedup]
    exact hk
  cases hs : mapGet src k with
  | none => exact absurd hs hk'
  | some v => exact mapGet_deepMergeMapKeys_of_mem src _ dst k v hk hs

/-- After the merge with the append and override options, the merge without options
of the same source changes nothing. -/
theorem deepMergeRelease_noOptions_after (dst src : release) :
    deepMergeRelease noOptions (deepMergeRelease appendOverride dst src) src
      = deepMergeRelease appendOverride dst src := by
  have hscalar : ∀ {α : Type} (e : α → Bool) (d s : α),
      deepMergeScalar e noOptions (deepMergeScalar e appendOverride d s) s
        = deepMergeScalar e appendOverride d s := by
    intro α e d s
    simp only [deepMergeScalar, noOptions, appendOverride, Bool.or_true, Bool.true_and,
      Bool.or_false]
    cases hs : e s <;> simp
  have hslice : ∀ (d s : List String),
      deepMergeSlice noOptions (deepMergeSlice appendOverride d s) s
        = deepMergeSlice appendOverride d s := by
    intro d s
    rw [deepMergeSlice_appendOverride]
    cases s with
    | nil => cases d <;> simp [deepMergeSlice, noOptions]
    | cons x xs => cases d <;> simp [deepMergeSlice, noOptions]
  simp only [deepMergeRelease, hscalar, hslice, deepMergeMap_noOptions_after]

theorem deepMergeApps_nil (config : Config) (dst : AppMap) :
    deepMergeApps config dst [] = dst := rfl

/-- The units after the body of the loop over `c.files`, whether the merge of the
settings fails or not. -/
theorem mergeFile_Apps {σ : Type} (w : World σ) (name : String) (s fileState : state σ) :
    (mergeFile w name s fileState).1.Apps
      = deepMergeApps noOptions (mergeExistingApps s.Apps fileState.Apps) fileState.Apps := by
  unfold mergeFile deepMergeState
  simp only
  cases w.mergeSettings appendOverride s.Settings fileState.Settings <;> rfl

/-- The unit under each name after one source is folded: the merged unit when the state
had the name, the unit of the source when the name is new, the previous entry when the
source does not have the name. -/
theorem mapGet_mergeFile {σ : Type} (w : World σ) (name : String) (s fileState : state σ)
    (hnd : (mapKeys fileState.Apps).Nodup) (k : String) :
    mapGet (mergeFile w name s fileState).1.Apps k =
      match mapGet s.Apps k, mapGet fileState.Apps k with
      | some existing, some app => some (deepMergeRelease appendOverride existing app)
      | none, some app => some app
      | previous, none => previous := by
  rw [mergeFile_Apps, mapGet_deepMergeApps noOptions _ hnd, mapGet_mergeExistingApps _ hnd]
  cases h1 : mapGet s.Apps k <;> cases h2 : mapGet fileState.Apps k <;>
    simp [deepMergeRelease_noOptions_after]

/-! ## Properties of the fold over the files -/

theorem foldFiles_cons_error {σ : Type} (w : World σ) (f : fileOption) (rest : List fileOption)
    (s : state σ) (err : Error) (h : w.fromFile f.name = .error err) :
    foldFiles w (f :: rest) s = ⟨s, some err, [.fromFile f.name]⟩ := by
  simp [foldFiles, h]

theorem foldFiles_cons_mergeError {σ : Type} (w : World σ) (f : fileOption)
    (rest : List fileOption) (s fileState s' : state σ) (err : Error)
    (h : w.fromFile f.name = .ok fileState)
    (hm : mergeFile w f.name s fileState = (s', some err)) :
    foldFiles w (f :: rest) s = ⟨s', some err, [.fromFile f.name]⟩ := by
  simp [foldFiles, h, hm]

theorem foldFiles_cons_ok {σ : Type} (w : World σ) (f : fileOption) (rest : List fileOption)
    (s fileState s' : state σ) (h : w.fromFile f.name = .ok fileState)
    (hm : mergeFile w f.name s fileState = (s', none)) :
    foldFiles w (f :: rest) s =
      ⟨(foldFiles w rest s').s, (foldFiles w rest s').err,
        .fromFile f.name :: (foldFiles w rest s').trace⟩ := by
  simp [foldFiles, h, hm]

/-- A fold without error has parsed and merged its first file without error. -/
theorem foldFiles_cons_of_ok {σ : Type} (w : World σ) (f : fileOption) (rest : List fileOption)
    (s : state σ) (h : (foldFiles w (f :: rest) s).err = none) :
    ∃ fileState s', w.fromFile f.name = .ok fileState ∧
      mergeFile w f.name s fileState = (s', none) ∧ (foldFiles w rest s').err = none := by
  cases hf : w.fromFile f.name with
  | error err => rw [foldFiles_cons_error w f rest s err hf] at h; simp at h
  | ok fileState =>
    rcases hm : mergeFile w f.name s fileState with ⟨s', _ | err⟩
    · refine ⟨fileState, s', rfl, hm, ?_⟩
      rw [foldFiles_cons_ok w f rest s fileState s' hf hm] at h
      exact h
    · rw [foldFiles_cons_mergeError w f rest s fileState s' err hf hm] at h
      simp at h

theorem mem_mapKeys_mergeFile {σ : Type} (w : World σ) (name : String) (s fileState : state σ)
    (k : String) :
    k ∈ mapKeys (mergeFile w name s fileState).1.Apps
      ↔ k ∈ mapKeys s.Apps ∨ k ∈ mapKeys fileState.Apps := by
  rw [mergeFile_Apps, mem_mapKeys_deepMergeApps, mem_mapKeys_mergeExistingApps]

theorem mapKeys_mergeFile_nodup {σ : Type} (w : World σ) (name : String) (s fileState : state σ)
    (h : (mapKeys s.Apps).Nodup) : (mapKeys (mergeFile w name s fileState).1.Apps).Nodup := by
  rw [mergeFile_Apps]
  exact mapKeys_deepMergeApps_nodup _ _ _ (mapKeys_mergeExistingApps_nodup _ _ h)

theorem mem_mapKeys_foldFiles {σ : Type} (w : World σ) (files : List fileOption) :
    ∀ s : state σ, (foldFiles w files s).err = none → ∀ k : String,
      (k ∈ mapKeys (foldFiles w files s).s.Apps ↔
        k ∈ mapKeys s.Apps ∨
          ∃ f ∈ files, ∃ fileState, w.fromFile f.name = .ok fileState ∧
            k ∈ mapKeys fileState.Apps) := by
  induction files with
  | nil => intro s _ k; simp [foldFiles]
  | cons f rest ih =>
    intro s h k
    obtain ⟨fileState, s', hf, hm, hrest⟩ := foldFiles_cons_of_ok w f rest s h
    rw [foldFiles_cons_ok w f rest s fileState s' hf hm]
    simp only
    rw [ih s' hrest k]
    have hs' : s' = (mergeFile w f.name s fileState).1 := by rw [hm]
    rw [hs', mem_mapKeys_mergeFile]
    constructor
    · rintro ((h1 | h1) | ⟨g, hg, gs, hgs, hk⟩)
      · exact Or.inl h1
      · exact Or.inr ⟨f, List.mem_cons_self _ _, fileState, hf, h1⟩
      · exact Or.inr ⟨g, List.mem_cons_of_mem _ hg, gs, hgs, hk⟩
    · rintro (h1 | ⟨g, hg, gs, hgs, hk⟩)
      · exact Or.inl (Or.inl h1)
      · rcases List.mem_cons.mp hg with hg | hg
        · subst hg
          rw [hf] at hgs
          cases hgs
          exact Or.inl (Or.inr hk)
        · exact Or.inr ⟨g, hg, gs, hgs, hk⟩

theorem mapKeys_foldFiles_nodup {σ : Type} (w : World σ) (files : List fileOption) :
    ∀ s : state σ, (foldFiles w files s).err = none → (mapKeys s.Apps).Nodup →
      (mapKeys (foldFiles w files s).s.Apps).Nodup := by
  induction files with
  | nil => intro s _ h; simpa [foldFiles] using h
  | cons f rest ih =>
    intro s h hnd
    obtain ⟨fileState, s', hf, hm, hrest⟩ := foldFiles_cons_of_ok w f rest s h
    rw [foldFiles_cons_ok w f rest s fileState s' hf hm]
    simp only
    apply ih s' hrest
    have hs' : s' = (mergeFile w f.name s fileState).1 := by rw [hm]
    rw [hs']
    exact mapKeys_mergeFile_nodup w f.name s fileState hnd

/-- The unit under a name after one file is folded without error. -/
theorem mapGet_foldFiles_single {σ : Type} (w : World σ) (f : fileOption) (s fileState : state σ)
    (hf : w.fromFile f.name = .ok fileState) (hnd : (mapKeys fileState.Apps).Nodup)
    (hok : (foldFiles w [f] s).err = none) (k : String) :
    mapGet (foldFiles w [f] s).s.Apps k =
      match mapGet s.Apps k, mapGet fileState.Apps k with
      | some existing, some app => some (deepMergeRelease appendOverride existing app)
      | none, some app => some app
      | previous, none => previous := by
  obtain ⟨fileState', s', hf', hm, _⟩ := foldFiles_cons_of_ok w f [] s hok
  rw [hf] at hf'
  cases hf'
  rw [foldFiles_cons_ok w f [] s fileState s' hf hm]
  simp only [foldFiles]
  have hs' : s' = (mergeFile w f.name s fileState).1 := by rw [hm]
  rw [hs']
  exact mapGet_mergeFile w f.name s fileState hnd k

/-- Folding `f :: rest` without error is folding `f`, then `rest` from the state
that `f` leaves. -/
theorem foldFiles_cons_state {σ : Type} (w : World σ) (f : fileOption) (rest : List fileOption)
    (s : state σ) (hok : (foldFiles w (f :: rest) s).err = none) :
    (foldFiles w [f] s).err = none ∧
    (foldFiles w rest (foldFiles w [f] s).s).err = none ∧
    (foldFiles w (f :: rest) s).s = (foldFiles w rest (foldFiles w [f] s).s).s := by
  obtain ⟨fileState, s', hf, hm, hrest⟩ := foldFiles_cons_of_ok w f rest s hok
  rw [foldFiles_cons_ok w f rest s fileState s' hf hm,
    foldFiles_cons_ok w f [] s fileState s' hf hm]
  simp only [foldFiles]
  exact ⟨trivial, hrest, trivial⟩

/-! ## The claims on the merge of the units -/

/-- C4, the counterexample: "a.yaml" declares the unit app1 with `enabled: true`, and
"b.yaml", folded after it, declares app1 with `enabled: false`; the composed unit is
still enabled, so the value that the later source sets is not the merged one. Likewise
for a map-valued field: over the earlier map {a: 1}, the later map {b: 2} composes to
{a: 1, b: 2}, which is not the map of the later source. -/
theorem later_zero_value_is_not_taken :
    ((mapGet (sourceOf [("app1", app1 "2" false [])]).Apps "app1").map release.Enabled
      = some false ∧
    (foldFiles (worldOf [] [("a.yaml", sourceOf [("app1", app1 "1" true [])]),
        ("b.yaml", sourceOf [("app1", app1 "2" false [])])])
      [⟨"a.yaml", 0⟩, ⟨"b.yaml", 0⟩] emptyState).err = none ∧
    (mapGet (foldFiles (worldOf [] [("a.yaml", sourceOf [("app1", app1 "1" true [])]),
        ("b.yaml", sourceOf [("app1", app1 "2" false [])])])
      [⟨"a.yaml", 0⟩, ⟨"b.yaml", 0⟩] emptyState).s.Apps "app1").map release.Enabled
      = some true) ∧
    ((foldFiles (worldOf [] [("a.yaml", sourceOf [("app1", app1Set [("a", "1")])]),
        ("b.yaml", sourceOf [("app1", app1Set [("b", "2")])])])
      [⟨"a.yaml", 0⟩, ⟨"b.yaml", 0⟩] emptyState).err = none ∧
    (mapGet (foldFiles (worldOf [] [("a.yaml", sourceOf [("app1", app1Set [("a", "1")])]),
        ("b.yaml", sourceOf [("app1", app1Set [("b", "2")])])])
      [⟨"a.yaml", 0⟩, ⟨"b.yaml", 0⟩] emptyState).s.Apps "app1").map release.SetString
      = some [("a", "1"), ("b", "2")] ∧
    (mapGet (foldFiles (worldOf [] [("a.yaml", sourceOf [("app1", app1Set [("a", "1")])]),
        ("b.yaml", sourceOf [("app1", app1Set [("b", "2")])])])
      [⟨"a.yaml", 0⟩, ⟨"b.yaml", 0⟩] emptyState).s.Apps "app1").map release.SetString
      ≠ (mapGet (sourceOf [("app1", app1Set [("b", "2")])]).Apps "app1").map
          release.SetString) := by
  decide

/-- C4, amended: when a source folded later defines a unit whose name the accumulated
state already has, every scalar field of the merged unit holds the value of the later
source when that value is not the zero value of its type (a non-empty string, `true`),
and keeps the earlier value when the later source leaves the field unset or sets it to
the zero value (the two cannot be told apart after parsing). A map-valued field is
merged key by key: under every key that the later source sets, to an empty string too,
the merged map holds the value of the later source, and under every key that the later
source does not set it keeps the earlier entry. -/
theorem override_policy_of_nonzero_values {σ : Type} (w : World σ) (f : fileOption)
    (s fileState : state σ) (k : String) (existing app : release)
    (hf : w.fromFile f.name = .ok fileState) (hnd : (mapKeys fileState.Apps).Nodup)
    (hok : (foldFiles w [f] s).err = none)
    (hs : mapGet s.Apps k = some existing) (ha : mapGet fileState.Apps k = some app) :
    ∃ merged : release, mapGet (foldFiles w [f] s).s.Apps k = some merged ∧
      merged.Name = (if app.Name = "" then existing.Name else app.Name) ∧
      merged.Namespace = (if app.Namespace = "" then existing.Namespace else app.Namespace) ∧
      merged.Enabled = (if app.Enabled = false then existing.Enabled else app.Enabled) ∧
      merged.Group = (if app.Group = "" then existing.Group else app.Group) ∧
      merged.Chart = (if app.Chart = "" then existing.Chart else app.Chart) ∧
      merged.Version = (if app.Version = "" then existing.Version else app.Version) ∧
      (∀ key : String, mapGet merged.SetString key =
        match mapGet app.SetString key with
        | some value => some value
        | none => mapGet existing.SetString key) := by
  refine ⟨deepMergeRelease appendOverride existing app, ?_, ?_⟩
  · rw [mapGet_foldFiles_single w f s fileState hf hnd hok k, hs, ha]
  · simp only [deepMergeRelease, deepMergeString_appendOverride, deepMergeBool_appendOverride]
    exact ⟨trivial, trivial, trivial, trivial, trivial, trivial,
      fun key => mapGet_deepMergeMap_appendOverride existing.SetString app.SetString key⟩

/-- Version "1" earlier and version "2" later compose to "2"; folded in the opposite
order they compose to "1". Over the earlier map {a: 1, c: 3}, the later map {a: ""}
leaves the empty string under "a" and keeps the entry of "c". -/
theorem override_policy_of_nonzero_values_witness :
    (∃ merged : release,
      mapGet (foldFiles (worldOf [] [("b.yaml", sourceOf [("app1", app1 "2" true [])])])
        [⟨"b.yaml", 1⟩] (sourceOf [("app1", app1 "1" true [])])).s.Apps "app1" = some merged ∧
      merged.Version = "2") ∧
    (∃ merged : release,
      mapGet (foldFiles (worldOf [] [("a.yaml", sourceOf [("app1", app1 "1" true [])])])
        [⟨"a.yaml", 1⟩] (sourceOf [("app1", app1 "2" true [])])).s.Apps "app1" = some merged ∧
      merged.Version = "1") ∧
    (∃ merged : release,
      mapGet (foldFiles (worldOf [] [("b.yaml", sourceOf [("app1", app1Set [("a", "")])])])
        [⟨"b.yaml", 1⟩] (sourceOf [("app1", app1Set [("a", "1"), ("c", "3")])])).s.Apps "app1"
          = some merged ∧
      mapGet merged.SetString "a" = some "" ∧ mapGet merged.SetString "c" = some "3") := by
  refine ⟨?_, ?_, ?_⟩
  · obtain ⟨merged, h, _, _, _, _, _, hv, _⟩ := override_policy_of_nonzero_values
      (worldOf [] [("b.yaml", sourceOf [("app1", app1 "2" true [])])]) ⟨"b.yaml", 1⟩
      (sourceOf [("app1", app1 "1" true [])]) (sourceOf [("app1", app1 "2" true [])]) "app1"
      (app1 "1" true []) (app1 "2" true []) rfl (by decide) (by decide) (by decide)
      (by decide)
    exact ⟨merged, h, hv.trans (by decide)⟩
  · obtain ⟨merged, h, _, _, _, _, _, hv, _⟩ := override_policy_of_nonzero_values
      (worldOf [] [("a.yaml", sourceOf [("app1", app1 "1" true [])])]) ⟨"a.yaml", 1⟩
      (sourceOf [("app1", app1 "2" true [])]) (sourceOf [("app1", app1 "1" true [])]) "app1"
      (app1 "2" true []) (app1 "1" true []) rfl (by decide) (by decide) (by decide)
      (by decide)
    exact ⟨merged, h, hv.trans (by decide)⟩
  · obtain ⟨merged, h, _, _, _, _, _, _, hm⟩ := override_policy_of_nonzero_values
      (worldOf [] [("b.yaml", sourceOf [("app1", app1Set [("a", "")])])]) ⟨"b.yaml", 1⟩
      (sourceOf [("app1", app1Set [("a", "1"), ("c", "3")])])
      (sourceOf [("app1", app1Set [("a", "")])]) "app1"
      (app1Set [("a", "1"), ("c", "3")]) (app1Set [("a", "")]) rfl (by decide) (by decide)
      (by decide) (by decide)
    exact ⟨merged, h, (hm "a").trans (by decide), (hm "c").trans (by decide)⟩

/-- C5: for a unit that the state does not have yet and that two sources A and B, folded
in this order, both define, every sequence-valued field of the composed unit is the
sequence of A followed by the sequence of B, so each element occurs as often as in A and
in B together: the merge of the maps and the merge of the rest, which follow the merge of
the unit, drop, reorder and repeat nothing. -/
theorem append_policy {σ : Type} (w : World σ) (fa fb : fileOption) (A B s : state σ)
    (k : String) (a b : release)
    (hA : w.fromFile fa.name = .ok A) (hB : w.fromFile fb.name = .ok B)
    (hndA : (mapKeys A.Apps).Nodup) (hndB : (mapKeys B.Apps).Nodup)
    (hok : (foldFiles w [fa, fb] s).err = none)
    (hs : mapGet s.Apps k = none) (ha : mapGet A.Apps k = some a)
    (hb : mapGet B.Apps k = some b) :
    ∃ merged : release, mapGet (foldFiles w [fa, fb] s).s.Apps k = some merged ∧
      merged.ValuesFiles = a.ValuesFiles ++ b.ValuesFiles ∧
      merged.Labels = a.Labels ++ b.Labels ∧
      (∀ x : String, merged.ValuesFiles.count x
        = a.ValuesFiles.count x + b.ValuesFiles.count x) ∧
      (∀ x : String, merged.Labels.count x = a.Labels.count x + b.Labels.count x) := by
  obtain ⟨hok1, hok2, hstate⟩ := foldFiles_cons_state w fa [fb] s hok
  have h1 : mapGet (foldFiles w [fa] s).s.Apps k = some a := by
    rw [mapGet_foldFiles_single w fa s A hA hndA hok1 k, hs, ha]
  refine ⟨deepMergeRelease appendOverride a b, ?_, ?_⟩
  · rw [hstate, mapGet_foldFiles_single w fb _ B hB hndB hok2 k, h1, hb]
  · simp only [deepMergeRelease, deepMergeSlice_appendOverride, List.count_append]
    exact ⟨trivial, trivial, fun _ => trivial, fun _ => trivial⟩

/-- The value files [a] of the first source and [b] of the second compose to [a, b]. -/
theorem append_policy_witness :
    ∃ merged : release,
      mapGet (foldFiles (worldOf [] [("a.yaml", sourceOf [("app1", app1 "1" true ["a"])]),
          ("b.yaml", sourceOf [("app1", app1 "1" true ["b"])])])
        [⟨"a.yaml", 0⟩, ⟨"b.yaml", 0⟩] emptyState).s.Apps "app1" = some merged ∧
      merged.ValuesFiles = ["a", "b"] := by
  obtain ⟨merged, h, hv, _⟩ := append_policy
    (worldOf [] [("a.yaml", sourceOf [("app1", app1 "1" true ["a"])]),
      ("b.yaml", sourceOf [("app1", app1 "1" true ["b"])])])
    ⟨"a.yaml", 0⟩ ⟨"b.yaml", 0⟩ (sourceOf [("app1", app1 "1" true ["a"])])
    (sourceOf [("app1", app1 "1" true ["b"])]) emptyState "app1"
    (app1 "1" true ["a"]) (app1 "1" true ["b"])
    rfl rfl (by decide) (by decide) (by decide) (by decide) (by decide) (by decide)
  exact ⟨merged, h, hv.trans (by decide)⟩

/-- C6: after the fold loop has folded every file without error, the keys of `s.Apps`
are the names that `s` had before together with the unit names of all the sources, and
they stay distinct; in each step a new name is added with the unit of the source, a name
that exists keeps one entry, which holds the merged unit, and the final merge of the
rest, run with an empty `Apps` in the source, leaves the units as they are. -/
theorem fold_units_are_the_union {σ : Type} (w : World σ) (files : List fileOption)
    (s : state σ) (hok : (foldFiles w files s).err = none) :
    (∀ k : String, k ∈ mapKeys (foldFiles w files s).s.Apps ↔
      k ∈ mapKeys s.Apps ∨
        ∃ f ∈ files, ∃ fileState, w.fromFile f.name = .ok fileState ∧
          k ∈ mapKeys fileState.Apps) ∧
    ((mapKeys s.Apps).Nodup → (mapKeys (foldFiles w files s).s.Apps).Nodup) ∧
    (∀ (name : String) (acc fileState : state σ), (mapKeys fileState.Apps).Nodup →
      ∀ k : String, mapGet (mergeFile w name acc fileState).1.Apps k =
        match mapGet acc.Apps k, mapGet fileState.Apps k with
        | some existing, some app => some (deepMergeRelease appendOverride existing app)
        | none, some app => some app
        | previous, none => previous) ∧
    (∀ acc fileState merged : state σ,
      deepMergeState w.mergeSettings appendOverride acc { fileState with Apps := [] }
        = .ok merged → merged.Apps = acc.Apps) := by
  refine ⟨mem_mapKeys_foldFiles w files s hok, mapKeys_foldFiles_nodup w files s hok,
    fun name acc fileState hnd k => mapGet_mergeFile w name acc fileState hnd k, ?_⟩
  intro acc fileState merged h
  unfold deepMergeState at h
  cases hm : w.mergeSettings appendOverride acc.Settings fileState.Settings with
  | error err => simp [hm] at h
  | ok settings =>
    simp only [hm] at h
    cases h
    rfl

/-- The sources a.yaml (app1) and b.yaml (app1, app2), folded into the empty state,
leave app2 among the units. -/
theorem fold_units_are_the_union_witness :
    "app2" ∈ mapKeys (foldFiles
      (worldOf [] [("a.yaml", sourceOf [("app1", app1 "1" true [])]),
        ("b.yaml", sourceOf [("app1", app1 "2" true []), ("app2", app1 "1" true [])])])
      [⟨"a.yaml", 0⟩, ⟨"b.yaml", 0⟩] emptyState).s.Apps :=
  ((fold_units_are_the_union
      (worldOf [] [("a.yaml", sourceOf [("app1", app1 "1" true [])]),
        ("b.yaml", sourceOf [("app1", app1 "2" true []), ("app2", app1 "1" true [])])])
      [⟨"a.yaml", 0⟩, ⟨"b.yaml", 0⟩] emptyState (by decide)).1 "app2").mpr
    (Or.inr ⟨⟨"b.yaml", 0⟩, by decide,
      sourceOf [("app1", app1 "2" true []), ("app2", app1 "1" true [])], rfl, by decide⟩)

/-! ## Properties of `readState` -/

/-- Folding `pre ++ rest`, when `pre` is folded without error, is folding `rest` from
the state that `pre` leaves. -/
theorem foldFiles_append {σ : Type} (w : World σ) (pre rest : List fileOption) :
    ∀ s : state σ, (foldFiles w pre s).err = none →
      foldFiles w (pre ++ rest) s =
        ⟨(foldFiles w rest (foldFiles w pre s).s).s, (foldFiles w rest (foldFiles w pre s).s).err,
          (foldFiles w pre s).trace ++ (foldFiles w rest (foldFiles w pre s).s).trace⟩ := by
  induction pre with
  | nil => intro s _; simp [foldFiles]
  | cons f pre ih =>
    intro s h
    obtain ⟨fileState, s', hf, hm, hrest⟩ := foldFiles_cons_of_ok w f pre s h
    rw [List.cons_append, foldFiles_cons_ok w f (pre ++ rest) s fileState s' hf hm,
      foldFiles_cons_ok w f pre s fileState s' hf hm, ih s' hrest]
    simp

/-- A fold without error has parsed every file, in the order of the list. -/
theorem foldFiles_trace_of_ok {σ : Type} (w : World σ) (files : List fileOption) :
    ∀ s : state σ, (foldFiles w files s).err = none →
      (foldFiles w files s).trace = files.map (fun f => Event.fromFile f.name) := by
  induction files with
  | nil => intro s _; simp [foldFiles]
  | cons f rest ih =>
    intro s h
    obtain ⟨fileState, s', hf, hm, hrest⟩ := foldFiles_cons_of_ok w f rest s h
    rw [foldFiles_cons_ok w f rest s fileState s' hf hm]
    simp [ih s' hrest]

/-- A file that cannot be folded ends the loop: the files after it play no part. -/
theorem foldFiles_fails_at_head {σ : Type} (w : World σ) (f : fileOption)
    (post : List fileOption) (s : state σ) (e : Error) (h : (foldFiles w [f] s).err = some e) :
    foldFiles w (f :: post) s = ⟨(foldFiles w [f] s).s, some e, [.fromFile f.name]⟩ := by
  cases hf : w.fromFile f.name with
  | error err =>
    rw [foldFiles_cons_error w f [] s err hf] at h
    rw [foldFiles_cons_error w f post s err hf, foldFiles_cons_error w f [] s err hf]
    simp only at h
    rw [h]
  | ok fileState =>
    rcases hm : mergeFile w f.name s fileState with ⟨s', _ | err⟩
    · rw [foldFiles_cons_ok w f [] s fileState s' hf hm] at h
      simp [foldFiles] at h
    · rw [foldFiles_cons_mergeError w f [] s fileState s' err hf hm] at h
      rw [foldFiles_cons_mergeError w f post s fileState s' err hf hm,
        foldFiles_cons_mergeError w f [] s fileState s' err hf hm]
      simp only at h
      rw [h]

theorem readState_of_folded_error {σ : Type} (w : World σ) (c : cli) (s : state σ)
    (t₁ t₂ : List Event) (files : fileOptionArray) (e : Error)
    (henv : loadEnv w c = (t₁, none)) (hspec : loadSpec w c = (files, t₂, none))
    (hfold : (foldFiles w files s).err = some e) :
    cli.readState w c s =
      ⟨(foldFiles w files s).s, files, some e,
        t₁ ++ [.wipeTempDir] ++ t₂ ++ (foldFiles w files s).trace⟩ := by
  unfold cli.readState
  rw [henv, hspec]
  simp only
  rw [hfold]

theorem readState_of_folded {σ : Type} (w : World σ) (c : cli) (s : state σ)
    (t₁ t₂ : List Event) (files : fileOptionArray)
    (henv : loadEnv w c = (t₁, none)) (hspec : loadSpec w c = (files, t₂, none))
    (hfold : (foldFiles w files s).err = none) :
    cli.readState w c s =
      ⟨(finish w c files (foldFiles w files s).s).s, files,
        (finish w c files (foldFiles w files s).s).err,
        t₁ ++ [.wipeTempDir] ++ t₂ ++ (foldFiles w files s).trace
          ++ (finish w c files (foldFiles w files s).s).trace⟩ := by
  unfold cli.readState
  rw [henv, hspec]
  simp only
  rw [hfold]

theorem finish_of_skipValidation {σ : Type} (w : World σ) (c : cli) (files : fileOptionArray)
    (s : state σ) (h : c.skipValidation = true) :
    finish w c files s =
      ⟨w.disableUntargetedApps (w.init s) c.group c.target, none,
        if c.debug then [Event.init, Event.disableUntargetedApps, Event.print]
        else [Event.init, Event.disableUntargetedApps]⟩ := by
  unfold finish
  simp [h]

theorem validate_not_mem_loadEnvFiles {σ : Type} (w : World σ) (l : List String) :
    Event.validate ∉ (loadEnvFiles w l).1 := by
  induction l with
  | nil => simp [loadEnvFiles]
  | cons e rest ih =>
    unfold loadEnvFiles
    cases w.godotenvLoad e with
    | none => simpa using ih
    | some err => simp

theorem validate_not_mem_loadEnv {σ : Type} (w : World σ) (c : cli) :
    Event.validate ∉ (loadEnv w c).1 := by
  unfold loadEnv
  split
  · cases w.godotenvLoad ".env" <;> simp
  · exact validate_not_mem_loadEnvFiles w c.envFiles

theorem validate_not_mem_appendSpecFiles {σ : Type} (w : World σ) (sp : List StatePath) :
    ∀ files : fileOptionArray, Event.validate ∉ (appendSpecFiles w sp files).2.1 := by
  induction sp with
  | nil => intro files; simp [appendSpecFiles]
  | cons val rest ih =>
    intro files
    unfold appendSpecFiles
    simp only
    cases w.isValidFile val.Path with
    | none => simpa using ih _
    | some err => simp

theorem validate_not_mem_loadSpec {σ : Type} (w : World σ) (c : cli) :
    Event.validate ∉ (loadSpec w c).2.1 := by
  unfold loadSpec
  split
  · cases hsp : w.specFromYAML c.spec with
    | error err => simp
    | ok sp =>
      simp only
      have := validate_not_mem_appendSpecFiles w sp c.files
      cases h : (appendSpecFiles w sp c.files).2.2 <;> simpa using this
  · simp

theorem validate_not_mem_foldFiles {σ : Type} (w : World σ) (files : List fileOption) :
    ∀ s : state σ, Event.validate ∉ (foldFiles w files s).trace := by
  induction files with
  | nil => intro s; simp [foldFiles]
  | cons f rest ih =>
    intro s
    cases hf : w.fromFile f.name with
    | error err => rw [foldFiles_cons_error w f rest s err hf]; simp
    | ok fileState =>
      rcases hm : mergeFile w f.name s fileState with ⟨s', _ | err⟩
      · rw [foldFiles_cons_ok w f rest s fileState s' hf hm]
        simpa using ih s'
      · rw [foldFiles_cons_mergeError w f rest s fileState s' err hf hm]; simp

theorem loadEnvFiles_validate_irrelevant {σ : Type} (w : World σ)
    (validate' : state σ → Option Error) (l : List String) :
    loadEnvFiles { w with validate := validate' } l = loadEnvFiles w l := by
  induction l with
  | nil => rfl
  | cons e rest ih =>
    unfold loadEnvFiles
    simp only [ih]

theorem appendSpecFiles_validate_irrelevant {σ : Type} (w : World σ)
    (validate' : state σ → Option Error) (sp : List StatePath) :
    ∀ files : fileOptionArray,
      appendSpecFiles { w with validate := validate' } sp files = appendSpecFiles w sp files := by
  induction sp with
  | nil => intro files; rfl
  | cons val rest ih =>
    intro files
    unfold appendSpecFiles
    simp only [ih]

theorem foldFiles_validate_irrelevant {σ : Type} (w : World σ)
    (validate' : state σ → Option Error) (files : List fileOption) :
    ∀ s : state σ, foldFiles { w with validate := validate' } files s = foldFiles w files s := by
  induction files with
  | nil => intro s; rfl
  | cons f rest ih =>
    intro s
    unfold foldFiles
    have hm : ∀ fileState : state σ,
        mergeFile { w with validate := validate' } f.name s fileState
          = mergeFile w f.name s fileState := fun _ => rfl
    simp only [ih, hm]

/-! ## The claims on `readState` and `parse` -/

/-- C1, at the failing input: the manifest lists a.yaml with priority 10 and then b.yaml
with priority -10. `readState` leaves both descriptors with priority 0, parses and folds
a.yaml before b.yaml, and the version "2" of b.yaml overrides the version "1" of
a.yaml; by the declared priorities b.yaml would be folded first and "1" would win. -/
theorem manifest_priorities_are_not_read :
    (cli.readState
      (worldOf [⟨"a.yaml", 10⟩, ⟨"b.yaml", -10⟩]
        [("a.yaml", sourceOf [("app1", app1 "1" true [])]),
          ("b.yaml", sourceOf [("app1", app1 "2" true [])])])
      { cli.default with spec := "spec.yaml" } emptyState).files
        = [⟨"a.yaml", 0⟩, ⟨"b.yaml", 0⟩] ∧
    parsedFiles (cli.readState
      (worldOf [⟨"a.yaml", 10⟩, ⟨"b.yaml", -10⟩]
        [("a.yaml", sourceOf [("app1", app1 "1" true [])]),
          ("b.yaml", sourceOf [("app1", app1 "2" true [])])])
      { cli.default with spec := "spec.yaml" } emptyState).trace = ["a.yaml", "b.yaml"] ∧
    (mapGet (cli.readState
      (worldOf [⟨"a.yaml", 10⟩, ⟨"b.yaml", -10⟩]
        [("a.yaml", sourceOf [("app1", app1 "1" true [])]),
          ("b.yaml", sourceOf [("app1", app1 "2" true [])])])
      { cli.default with spec := "spec.yaml" } emptyState).s.Apps "app1").map release.Version
        = some "2" := by
  decide

/-- C7, the counterexample: a.yaml is parsed and folded, missing.yaml cannot be parsed;
`readState` returns the error and the state behind `s`, empty before the call, holds
the unit of a.yaml after it. -/
theorem failed_readState_changes_the_state :
    (cli.readState (worldOf [] [("a.yaml", sourceOf [("app1", app1 "1" true [])])])
      { cli.default with files := [⟨"a.yaml", 0⟩, ⟨"missing.yaml", 0⟩] } emptyState).err
        = some "cannot parse missing.yaml" ∧
    (cli.readState (worldOf [] [("a.yaml", sourceOf [("app1", app1 "1" true [])])])
      { cli.default with files := [⟨"a.yaml", 0⟩, ⟨"missing.yaml", 0⟩] } emptyState).s.Apps
        ≠ emptyState.Apps := by
  decide

/-- C7, amended: when the files before `f` are folded without error and `f` fails to
parse or to merge, `readState` returns that error at once: the sources before `f` and
`f` itself are the only ones parsed, no later source is parsed or folded, and neither
`init`, `disableUntargetedApps` nor `validate` runs. The state behind `s` is not
restored: after a failure to parse `f` it holds the fold of the sources before `f`. -/
theorem readState_fails_fast {σ : Type} (w : World σ) (c : cli) (s : state σ)
    (t₁ t₂ : List Event) (pre : List fileOption) (f : fileOption) (post : List fileOption)
    (e : Error)
    (henv : loadEnv w c = (t₁, none)) (hspec : loadSpec w c = (pre ++ f :: post, t₂, none))
    (hpre : (foldFiles w pre s).err = none)
    (hf : (foldFiles w [f] (foldFiles w pre s).s).err = some e) :
    (cli.readState w c s).err = some e ∧
    (cli.readState w c s).trace =
      t₁ ++ [.wipeTempDir] ++ t₂ ++ (pre ++ [f]).map (fun g => Event.fromFile g.name) ∧
    (∀ e' : Error, w.fromFile f.name = .error e' →
      e' = e ∧ (cli.readState w c s).s = (foldFiles w pre s).s) := by
  have hfold : foldFiles w (pre ++ f :: post) s =
      ⟨(foldFiles w [f] (foldFiles w pre s).s).s, some e,
        (foldFiles w pre s).trace ++ [.fromFile f.name]⟩ := by
    rw [foldFiles_append w pre (f :: post) s hpre,
      foldFiles_fails_at_head w f post (foldFiles w pre s).s e hf]
  have herr : (foldFiles w (pre ++ f :: post) s).err = some e := by rw [hfold]
  rw [readState_of_folded_error w c s t₁ t₂ (pre ++ f :: post) e henv hspec herr, hfold]
  refine ⟨rfl, ?_, ?_⟩
  · simp [foldFiles_trace_of_ok w pre s hpre]
  · intro e' he'
    rw [foldFiles_cons_error w f [] (foldFiles w pre s).s e' he'] at hf
    simp only [Option.some.injEq] at hf
    refine ⟨hf, ?_⟩
    simp only
    rw [foldFiles_cons_error w f [] (foldFiles w pre s).s e' he']

/-- With a.yaml before missing.yaml and c.yaml after it, the call fails on missing.yaml,
c.yaml is never parsed, and the state holds the unit of a.yaml. -/
theorem readState_fails_fast_witness :
    (cli.readState (worldOf [] [("a.yaml", sourceOf [("app1", app1 "1" true [])]),
        ("c.yaml", sourceOf [("app3", app1 "3" true [])])])
      { cli.default with files := [⟨"a.yaml", 0⟩, ⟨"missing.yaml", 0⟩, ⟨"c.yaml", 0⟩] }
      emptyState).trace
        = [Event.wipeTempDir, Event.fromFile "a.yaml", Event.fromFile "missing.yaml"] :=
  (readState_fails_fast (worldOf [] [("a.yaml", sourceOf [("app1", app1 "1" true [])]),
        ("c.yaml", sourceOf [("app3", app1 "3" true [])])])
      { cli.default with files := [⟨"a.yaml", 0⟩, ⟨"missing.yaml", 0⟩, ⟨"c.yaml", 0⟩] }
      emptyState [] [] [⟨"a.yaml", 0⟩] ⟨"missing.yaml", 0⟩ [⟨"c.yaml", 0⟩]
      "cannot parse missing.yaml" rfl rfl (by decide) (by decide)).2.1

/-- C9: with `skipValidation` set, `readState` never calls the validator, what it
returns does not depend on the validator, so no error comes from validation; and
whenever the environment files, the manifest and the fold raise no error, `readState`
returns no error and the state is the folded one after `init` and
`disableUntargetedApps`, which both run. -/
theorem skipValidation_skips_the_validator_only {σ : Type} (w : World σ) (c : cli)
    (s : state σ) (hskip : c.skipValidation = true) :
    Event.validate ∉ (cli.readState w c s).trace ∧
    (∀ validate' : state σ → Option Error,
      cli.readState { w with validate := validate' } c s = cli.readState w c s) ∧
    ((loadEnv w c).2 = none → (loadSpec w c).2.2 = none →
      (foldFiles w (loadSpec w c).1 s).err = none →
        (cli.readState w c s).err = none ∧
        (cli.readState w c s).s =
          w.disableUntargetedApps (w.init (foldFiles w (loadSpec w c).1 s).s) c.group c.target ∧
        Event.init ∈ (cli.readState w c s).trace ∧
        Event.disableUntargetedApps ∈ (cli.readState w c s).trace) := by
  have h1 := validate_not_mem_loadEnv w c
  have h2 := validate_not_mem_loadSpec w c
  have h3 := validate_not_mem_foldFiles w (loadSpec w c).1 s
  refine ⟨?_, ?_, ?_⟩
  · unfold cli.readState
    rcases henv : loadEnv w c with ⟨t₁, _ | e₁⟩
    · rcases hspec : loadSpec w c with ⟨files, t₂, _ | e₂⟩
      · rw [henv] at h1
        rw [hspec] at h2 h3
        simp only at h1 h2 h3 ⊢
        cases hfold : (foldFiles w files s).err with
        | some e => simp [h1, h2, h3]
        | none =>
          simp only
          rw [finish_of_skipValidation w c files _ hskip]
          cases c.debug <;> simp [h1, h2, h3]
      · rw [henv] at h1
        rw [hspec] at h2
        simp only at h1 h2 ⊢
        simp [h1, h2]
    · rw [henv] at h1
      simpa using h1
  · intro validate'
    have e1 : loadEnv { w with validate := validate' } c = loadEnv w c := by
      unfold loadEnv
      simp only [loadEnvFiles_validate_irrelevant]
    have e2 : loadSpec { w with validate := validate' } c = loadSpec w c := by
      unfold loadSpec
      simp only [appendSpecFiles_validate_irrelevant]
    have e3 : ∀ (files : fileOptionArray) (s' : state σ),
        finish { w with validate := validate' } c files s' = finish w c files s' := by
      intro files s'
      rw [finish_of_skipValidation _ c files s' hskip, finish_of_skipValidation w c files s' hskip]
    unfold cli.readState
    simp only [e1, e2, e3, foldFiles_validate_irrelevant]
  · intro henv hspec hfold
    rcases henv' : loadEnv w c with ⟨t₁, e₁⟩
    rcases hspec' : loadSpec w c with ⟨files, t₂, e₂⟩
    rw [henv'] at henv
    rw [hspec'] at hspec hfold
    simp only at henv hspec hfold
    subst henv hspec
    rw [readState_of_folded w c s t₁ t₂ files henv' hspec' hfold,
      finish_of_skipValidation w c files _ hskip]
    cases c.debug <;> simp

/-- With `skipValidation` set, the fold of a.yaml is returned without error although
the validator rejects every state. -/
theorem skipValidation_skips_the_validator_only_witness :
    (cli.readState
      { worldOf [] [("a.yaml", sourceOf [("app1", app1 "1" true [])])] with
          validate := fun _ => some "invalid" }
      { cli.default with files := [⟨"a.yaml", 0⟩], skipValidation := true } emptyState).err
        = none :=
  ((skipValidation_skips_the_validator_only
      { worldOf [] [("a.yaml", sourceOf [("app1", app1 "1" true [])])] with
          validate := fun _ => some "invalid" }
      { cli.default with files := [⟨"a.yaml", 0⟩], skipValidation := true } emptyState
      rfl).2.2 (by decide) (by decide) (by decide)).1

theorem lenString_pos (s : String) (h : s ≠ "") : lenString s > 0 := by
  have := (lenString_eq_zero s).not.mpr h
  omega

/-- C8, the counterexample: with `-v`, `-f a.yaml` and `-spec spec.yaml` together,
`parse` prints the version and ends the process with status 0; no fatal error is raised. -/
theorem parse_with_version_exits_without_error :
    ({ cli.default with version := true, files := [⟨"a.yaml", 0⟩], spec := "spec.yaml" }
        : cli).files ≠ [] ∧
    ({ cli.default with version := true, files := [⟨"a.yaml", 0⟩], spec := "spec.yaml" }
        : cli).spec ≠ "" ∧
    cli.parse ⟨"kubectl", "helm", false, true, true, true⟩
      { cli.default with version := true, files := [⟨"a.yaml", 0⟩], spec := "spec.yaml" }
      { cli.default with version := true, files := [⟨"a.yaml", 0⟩], spec := "spec.yaml" }
        = ⟨.exit 0, [.printVersion]⟩ := by
  refine ⟨by decide, by decide, rfl⟩

/-- C8, amended: for every `cli` value `c` without the version flag on which `parse`
runs as the package-level `flags` value, if `c.files` and `c.spec` are both non-empty, or
`c.target` and `c.group` are both non-empty, `parse` ends with `log.Fatal` and the
message of the first conflict found, in the order `--apply` with `--dry-run`, `--destroy`
with `--apply`, `--target` with `--group`, `-f` with `-spec`; until then it has only set
up the logs and printed the banner (unless the banner is switched off), so no tool is
probed and no manifest or state source is read. -/
theorem parse_rejects_conflicts (t : Tools) (c : cli) (hv : c.version = false)
    (h : (c.files ≠ [] ∧ c.spec ≠ "") ∨ (c.target ≠ [] ∧ c.group ≠ [])) :
    (cli.parse t c c).ending = .fatal
      (if c.dryRun = true ∧ c.apply = true then "--apply and --dry-run can't be used together."
       else if c.destroy = true ∧ c.apply = true then
        "--destroy and --apply can't be used together."
       else if c.target ≠ [] ∧ c.group ≠ [] then "--target and --group can't be used together."
       else "-f and -spec can't be used together.") ∧
    (cli.parse t c c).trace =
      (if c.noFancy = true ∨ c.noBanner = true then
        [Event.initLogs (c.verbose || c.debug) (c.noFancy || c.noColors)]
       else
        [Event.initLogs (c.verbose || c.debug) (c.noFancy || c.noColors), Event.printBanner]) := by
  have hlen : ∀ l : List String, decide (l.length > 0) = true ↔ l ≠ [] := by
    intro l
    cases l <;> simp
  have hconflict : (c.target ≠ [] ∧ c.group ≠ []) ∨
      (c.files.length > 0 ∧ lenString c.spec > 0) := by
    rcases h with ⟨h1, h2⟩ | ⟨h1, h2⟩
    · exact Or.inr ⟨List.length_pos.mpr h1, lenString_pos c.spec h2⟩
    · exact Or.inl ⟨h1, h2⟩
  unfold cli.parse
  rw [if_neg (by simp [hv])]
  cases hf : c.noFancy <;> cases hb : c.noBanner <;> cases hd : c.dryRun <;>
    cases ha : c.apply <;> cases hy : c.destroy <;>
    by_cases ht : (c.target ≠ [] ∧ c.group ≠ []) <;>
    by_cases hs : (c.files.length > 0 ∧ lenString c.spec > 0) <;>
    simp [hf, hb, hd, ha, hy, ht, hs, List.length_pos] <;> tauto

/-- With `-f a.yaml` and `-spec spec.yaml` together, `parse` ends with the fatal error
of this conflict, after the logs are set up and the banner is printed. -/
theorem parse_rejects_conflicts_witness :
    cli.parse ⟨"kubectl", "helm", false, true, true, true⟩
        { cli.default with files := [⟨"a.yaml", 0⟩], spec := "spec.yaml" }
        { cli.default with files := [⟨"a.yaml", 0⟩], spec := "spec.yaml" }
      = ⟨.fatal "-f and -spec can't be used together.",
          [Event.initLogs false false, Event.printBanner]⟩ := by
  have h := parse_rejects_conflicts ⟨"kubectl", "helm", false, true, true, true⟩
    { cli.default with files := [⟨"a.yaml", 0⟩], spec := "spec.yaml" } rfl
    (Or.inl ⟨by decide, by decide⟩)
  exact (Parsed.mk.injEq _ _ _ _).mpr ⟨h.1.trans (by decide), h.2.trans (by decide)⟩

end Helmsman
